import Mathlib

/-!
Verification of the planner verification engine of the degree-auditor
repository (backend/server.ts): the topoSort function and the
POST /api/verify-planner handler.  JavaScript Maps are embedded as
association lists preserving insertion order (Map.set keeps the position
of an existing key); JS numbers occurring here are integers and are
embedded as Int; message strings are presentational renderings of the
structured Msg values below (the source renders some id lists through the
course-code map loaded by loadCourseCodes; the embedding keeps the
underlying course ids, which is the content of each message).
-/

namespace DegreeAuditor

/-- Association-list embedding of a JS Map: lookup of the first (unique) binding. -/
def mget {κ α : Type} [DecidableEq κ] (m : List (κ × α)) (k : κ) : Option α :=
  (m.find? (fun p => p.1 = k)).map (·.2)

/-- Association-list embedding of Map.set: replace in place if the key exists, else append. -/
def mset {κ α : Type} [DecidableEq κ] (m : List (κ × α)) (k : κ) (v : α) : List (κ × α) :=
  if m.any (fun p => p.1 = k) then m.map (fun p => if p.1 = k then (k, v) else p)
  else m ++ [(k, v)]

/-- Association-list embedding of Map.has. -/
def mhas {κ α : Type} [DecidableEq κ] (m : List (κ × α)) (k : κ) : Bool :=
  m.any (fun p => p.1 = k)

/-- Embedding of JS Set.add on an insertion-ordered list of strings. -/
def setAdd (s : List String) (x : String) : List String :=
  if x ∈ s then s else s ++ [x]

/-- First-occurrence deduplication, the contents of a JS Set built by repeated add. -/
def dedupFirst (l : List String) : List String :=
  l.foldl setAdd []

/-- One step of the neighbor loop inside the Kahn while-loop of topoSort:
for each neighbor m, decrement its in-degree and enqueue it when the
decremented value is exactly zero. -/
def processNeighbors : List String → List (String × Int) × List String →
    List (String × Int) × List String
  | [], st => st
  | m :: rest, (indeg, q) =>
    let d := ((mget indeg m).getD 0) - 1
    let indeg2 := mset indeg m d
    let q2 := if d = 0 then q ++ [m] else q
    processNeighbors rest (indeg2, q2)

/-- Fueled embedding of the while-loop of topoSort (Kahn algorithm): pop the
front of the queue, append it to the order, then decrement its neighbors.
The fuel passed at the call site (the number of in-degree entries) is shown
below to be sufficient, so the loop always ends because the queue empties. -/
def kahnLoop : Nat → List (String × Int) → List (String × List String) →
    List String → List String → List String
  | 0, _, _, _, order => order
  | fuel + 1, indeg, adj, q, order =>
    match q with
    | [] => order
    | n :: q2 =>
      let order2 := order ++ [n]
      let neighbors := (mget adj n).getD []
      let st := processNeighbors neighbors (indeg, q2)
      kahnLoop fuel st.1 adj st.2 order2

/-- Result of topoSort: the emitted order and the cycle flag. -/
structure TopoResult where
  order : List String
  hasCycle : Bool
deriving Repr, DecidableEq

/-- One edge step of the first phase of topoSort: the edge (u, v) adds its
missing endpoints to the adjacency map, appends v to the adjacency list of
u, increments the in-degree of v, and gives u in-degree 0 when it is not
yet present. -/
def topoBuildStep (st : List (String × List String) × List (String × Int))
    (e : String × String) :
    List (String × List String) × List (String × Int) :=
  let adj := st.1
  let indeg := st.2
  let adj := if mhas adj e.1 then adj else mset adj e.1 []
  let adj := if mhas adj e.2 then adj else mset adj e.2 []
  let adj := mset adj e.1 (((mget adj e.1).getD []) ++ [e.2])
  let indeg := mset indeg e.2 (((mget indeg e.2).getD 0) + 1)
  let indeg := if mhas indeg e.1 then indeg else mset indeg e.1 0
  (adj, indeg)

/-- The adjacency and in-degree maps built by the first phase of topoSort:
every node of the node list gets an empty adjacency list and in-degree 0,
then the edges are folded in through topoBuildStep. -/
def topoBuild (nodes : List String) (edges : List (String × String)) :
    List (String × List String) × List (String × Int) :=
  let adj0 := nodes.foldl (fun a n => mset a n ([] : List String)) []
  let indeg0 := nodes.foldl (fun a n => mset a n (0 : Int)) []
  edges.foldl topoBuildStep (adj0, indeg0)

/-- Embedding of topoSort from backend/server.ts: build adjacency and
in-degree maps, seed the queue with the zero in-degree entries in map
order, run the Kahn while-loop, and report a cycle when the emitted order
misses some node of the adjacency map. -/
def topoSort (nodes : List String) (edges : List (String × String)) : TopoResult :=
  let built := topoBuild nodes edges
  let adj := built.1
  let indeg := built.2
  let q := (indeg.filter (fun p => p.2 = 0)).map (·.1)
  let order := kahnLoop indeg.length indeg adj q []
  { order := order, hasCycle := decide (order.length ≠ adj.length) }

/-- One row of the PrerequisiteGroup table: dependent course and minimum count. -/
structure GroupRow where
  group_id : Int
  course_id : String
  min_courses : Int
deriving Repr, DecidableEq

/-- One row of the PrerequisiteGroupCourse table. -/
structure MemberRow where
  group_id : Int
  prereq_id : String
deriving Repr, DecidableEq

/-- The per-group record assembled by the handler; an orphan member row
(group id absent from the group table) yields a record with no dependent. -/
structure GroupWithMembers where
  group_id : Int
  course_id : Option String
  min_courses : Int
  members : List String
deriving Repr, DecidableEq

/-- One schedule item of the request body; the handler reads only course_id
and termIndex, termName travels in the request but is never read. -/
structure ScheduleItem where
  course_id : String
  termIndex : Int
  termName : String
deriving Repr, DecidableEq

/-- Map.set keyed by group_id on the insertion-ordered group list. -/
def gset (l : List GroupWithMembers) (g : GroupWithMembers) : List GroupWithMembers :=
  if l.any (fun x => x.group_id = g.group_id) then
    l.map (fun x => if x.group_id = g.group_id then g else x)
  else l ++ [g]

/-- Map.get keyed by group_id on the insertion-ordered group list. -/
def gget (l : List GroupWithMembers) (k : Int) : Option GroupWithMembers :=
  l.find? (fun x => x.group_id = k)

/-- Embedding of the groupsById construction: each group row is stored with
min_courses defaulted to 1 when it is 0 or missing (the JS expression
g.min_courses || 1), then each member row is appended to its group, an
orphan member row creating a dependent-less group. -/
def buildGroupsById (groups : List GroupRow) (memberRows : List MemberRow) :
    List GroupWithMembers :=
  let init := groups.foldl (fun (acc : List GroupWithMembers) (g : GroupRow) =>
    gset acc { group_id := g.group_id, course_id := some g.course_id,
               min_courses := (if g.min_courses = 0 then 1 else g.min_courses : Int),
               members := [] }) []
  memberRows.foldl (fun acc r =>
    match gget acc r.group_id with
    | some g => gset acc { g with members := g.members ++ [r.prereq_id] }
    | none => acc ++ [{ group_id := r.group_id, course_id := none,
                        min_courses := 1, members := [r.prereq_id] }]) init

/-- One member step of the node and edge construction of the handler: the
member enters the node set and yields an edge member to dependent when the
dependent is present. -/
def memberStep (cid : Option String) (a : List String × List (String × String))
    (prereq : String) : List String × List (String × String) :=
  let ns := setAdd a.1 prereq
  match cid with
  | some t => (ns, a.2 ++ [(prereq, t)])
  | none => (ns, a.2)

/-- One group step of the node and edge construction of the handler: the
dependent (when present) enters the node set, then every member is folded
in through memberStep. -/
def nodeEdgeStep (acc : List String × List (String × String)) (g : GroupWithMembers) :
    List String × List (String × String) :=
  let acc1 : List String × List (String × String) :=
    match g.course_id with
    | some t => (setAdd acc.1 t, acc.2)
    | none => acc
  g.members.foldl (memberStep g.course_id) acc1

/-- Embedding of the node and edge construction of the handler: for every
group, the dependent (when present) and every member enter the node set,
and each member yields an edge member to dependent when the dependent is
present. -/
def buildNodesEdges (gs : List GroupWithMembers) :
    List String × List (String × String) :=
  gs.foldl nodeEdgeStep ([], [])

/-- Embedding of the schedule lookup map: course_id to termIndex, a later
schedule item overwriting an earlier one with the same course_id. -/
def buildScheduleMap (schedule : List ScheduleItem) : List (String × Int) :=
  schedule.foldl (fun m item => mset m item.course_id item.termIndex) []

/-- Member record used by the classifier: member id and its scheduled
term index when scheduled. -/
structure MemberInfo where
  id : String
  scheduledTerm : Option Int
deriving Repr, DecidableEq

/-- The memberInfo list of a group: each member paired with its scheduled term. -/
def memberInfoOf (smap : List (String × Int)) (g : GroupWithMembers) : List MemberInfo :=
  g.members.map (fun pr => { id := pr, scheduledTerm := mget smap pr })

/-- The test scheduledTerm is non-null and strictly before the dependent term. -/
def isEarlier (m : MemberInfo) (dt : Int) : Bool :=
  match m.scheduledTerm with
  | some t => decide (t < dt)
  | none => false

/-- The test scheduledTerm is non-null and at the same or a later term than
the dependent, the condition of the must-be-scheduled-earlier violation. -/
def isLate (m : MemberInfo) (dt : Int) : Bool :=
  match m.scheduledTerm with
  | some t => decide (dt ≤ t)
  | none => false

/-- Structured content of the messages emitted by the handler; each
constructor corresponds to one message template of the source, carrying
the course ids the template interpolates (the source renders some of them
through the course-code display map). -/
inductive Msg where
  | notEnoughPrereqs (group_id : Int) (dependent : String) (required : Int)
      (got : Nat) (missingAvailable : List String)
  | prereqsNotAvailable (ids : List String)
  | prereqsExistNotScheduled (dependent : String) (ids : List String)
  | prereqsNotPlannedNorAvailable (dependent : String) (ids : List String)
  | mustBeEarlier (prereq dependent : String)
  | cycleDetected
deriving Repr, DecidableEq

/-- A violation entry of the response. -/
structure Violation where
  course_id : String
  message : Msg
  missingPrereqs : List String
deriving Repr, DecidableEq

/-- An advisory entry of the response; the cycle advisory has no course. -/
structure Advisory where
  course_id : Option String
  message : Msg
deriving Repr, DecidableEq

/-- Number of group members scheduled strictly before the dependent term. -/
def countEarlierOf (smap : List (String × Int)) (g : GroupWithMembers) (dt : Int) : Nat :=
  (memberInfoOf smap g).countP (fun m => isEarlier m dt)

/-- The missing list of the shortfall branch: members not scheduled strictly
before the dependent term. -/
def missingOf (smap : List (String × Int)) (g : GroupWithMembers) (dt : Int) : List String :=
  ((memberInfoOf smap g).filter (fun m => ¬ isEarlier m dt)).map (·.id)

/-- The violations one group contributes, in push order: when the dependent
is scheduled, the not-enough-prerequisites violation of the shortfall
branch (when the strictly-earlier count is below min_courses and some
missing member is in the remaining-standalone set) followed by one
must-be-scheduled-earlier violation per member scheduled at the same or a
later term; when the dependent is not scheduled, one violation listing the
unscheduled members that are in the remaining-standalone set. -/
def groupViolations (remaining : List String) (smap : List (String × Int))
    (g : GroupWithMembers) : List Violation :=
  match g.course_id with
  | none => []
  | some dependent =>
    let mi := memberInfoOf smap g
    match mget smap dependent with
    | some dt =>
      let countEarlier := countEarlierOf smap g dt
      let shortfall :=
        if (countEarlier : Int) < g.min_courses then
          let missing := missingOf smap g dt
          let missingViolations := missing.filter (fun id => id ∈ remaining)
          if missingViolations.isEmpty then []
          else [{ course_id := dependent,
                  message := .notEnoughPrereqs g.group_id dependent g.min_courses
                    countEarlier missingViolations,
                  missingPrereqs := missingViolations }]
        else []
      let late := mi.filterMap (fun m =>
        if isLate m dt then
          some { course_id := dependent,
                 message := Msg.mustBeEarlier m.id dependent,
                 missingPrereqs := [m.id] }
        else none)
      shortfall ++ late
    | none =>
      let notScheduled := (mi.filter (fun m => m.scheduledTerm = none)).map (·.id)
      let viol := notScheduled.filter (fun id => id ∈ remaining)
      if viol.isEmpty then []
      else [{ course_id := dependent,
              message := .prereqsExistNotScheduled dependent viol,
              missingPrereqs := viol }]

/-- The advisories one group contributes: when the dependent is scheduled
and the shortfall branch is taken, one advisory listing the missing members
absent from the remaining-standalone set; when the dependent is not
scheduled, one advisory listing the unscheduled members absent from that
set. -/
def groupAdvisories (remaining : List String) (smap : List (String × Int))
    (g : GroupWithMembers) : List Advisory :=
  match g.course_id with
  | none => []
  | some dependent =>
    let mi := memberInfoOf smap g
    match mget smap dependent with
    | some dt =>
      let countEarlier := countEarlierOf smap g dt
      if (countEarlier : Int) < g.min_courses then
        let missing := missingOf smap g dt
        let missingAdvisories := missing.filter (fun id => ¬ id ∈ remaining)
        if missingAdvisories.isEmpty then []
        else [{ course_id := some dependent,
                message := .prereqsNotAvailable missingAdvisories }]
      else []
    | none =>
      let notScheduled := (mi.filter (fun m => m.scheduledTerm = none)).map (·.id)
      let adv := notScheduled.filter (fun id => ¬ id ∈ remaining)
      if adv.isEmpty then []
      else [{ course_id := some dependent,
              message := .prereqsNotPlannedNorAvailable dependent adv }]

/-- The details block of the response. -/
structure VerifyDetails where
  nodesCount : Nat
  edgesCount : Nat
  topoHasCycle : Bool
deriving Repr, DecidableEq

/-- The response body of the verify-planner handler. -/
structure VerifyResult where
  violations : List Violation
  advisory : List Advisory
  suggestedOrder : List String
  details : VerifyDetails
deriving Repr, DecidableEq

/-- Embedding of the body of the verify-planner handler after request
validation: build groupsById from the two prerequisite tables, build the
node and edge lists, run topoSort, build the schedule map, accumulate
violations and advisories over the groups in map order, append the cycle
advisory when topoSort reports a cycle, and return the topological order
unchanged as suggestedOrder. -/
def verifyPlanner (schedule : List ScheduleItem)
    (remainingStandaloneCourseIds : List String)
    (groups : List GroupRow) (memberRows : List MemberRow) : VerifyResult :=
  let groupsById := buildGroupsById groups memberRows
  let ne := buildNodesEdges groupsById
  let nodes := ne.1
  let edges := ne.2
  let ts := topoSort nodes edges
  let smap := buildScheduleMap schedule
  let violations := groupsById.flatMap (groupViolations remainingStandaloneCourseIds smap)
  let advisory := groupsById.flatMap (groupAdvisories remainingStandaloneCourseIds smap)
      ++ (if ts.hasCycle then [{ course_id := none, message := Msg.cycleDetected }] else [])
  { violations := violations, advisory := advisory,
    suggestedOrder := ts.order,
    details := { nodesCount := nodes.length, edgesCount := edges.length,
                 topoHasCycle := ts.hasCycle } }

/-- The request body of the verify-planner endpoint; a field is none when it
is missing from the body or is not an array. -/
structure RawRequest where
  schedule : Option (List ScheduleItem)
  remainingStandaloneCourseIds : Option (List String)

/-- The two request-level rejections of the handler. -/
inductive RequestError where
  | invalidSchedule
  | invalidRemainingStandaloneCourseIds
deriving Repr, DecidableEq

/-- Embedding of the verify-planner handler including its request
validation: a missing or non-array schedule, then a missing or non-array
remainingStandaloneCourseIds, is rejected with status 400 before any
verification work; otherwise the verification body runs. -/
def verifyPlannerHandler (req : RawRequest)
    (groups : List GroupRow) (memberRows : List MemberRow) :
    Except RequestError VerifyResult :=
  match req.schedule with
  | none => .error .invalidSchedule
  | some schedule =>
    match req.remainingStandaloneCourseIds with
    | none => .error .invalidRemainingStandaloneCourseIds
    | some ids => .ok (verifyPlanner schedule ids groups memberRows)

/-- Split a character list at every comma-space separator. -/
def splitCommaAux : List Char → List Char → List String
  | [], cur => [String.mk cur.reverse]
  | ',' :: ' ' :: rest, cur => String.mk cur.reverse :: splitCommaAux rest []
  | c :: rest, cur => splitCommaAux rest (c :: cur)

/-- Character-level lower-casing of a string. -/
def lowerStr (s : String) : String :=
  String.mk (s.data.map Char.toLower)

/-- Modelled from the spec: the availability tokens of an outstanding
requirement record, the comma-joined term-name string split back into
tokens and lower-cased for the comparison the spec describes; the handler
under src contains no availability logic, so this definition exists only
to state the availability-mismatch hypothesis of the corresponding claim. -/
def availabilityTokens (availability : String) : List String :=
  (splitCommaAux availability.data []).map lowerStr

/-- Modelled from the spec: an outstanding requirement record as the
frontend tracks it, a course id and code with a computed availability
string. -/
structure OutstandingReq where
  course_id : String
  code : String
  availability : String
deriving Repr, DecidableEq

/-- The out-neighbor list of u: the targets of the edges with source u, in
edge order; this is what the adjacency list of u holds after the build phase. -/
def edgeTargets (edges : List (String × String)) (u : String) : List String :=
  (edges.filter (fun e => e.1 = u)).map (·.2)

/-- The in-degree of v over the whole edge list, counting duplicate edges. -/
def indegCount (edges : List (String × String)) (v : String) : Nat :=
  edges.countP (fun e => e.2 = v)

/-- The in-degree of v restricted to edges whose source lies in S. -/
def inCnt (edges : List (String × String)) (S : List String) (v : String) : Nat :=
  edges.countP (fun e => decide (e.2 = v) && decide (e.1 ∈ S))

/-- The nodes resident in the graph built by topoSort: the node list and all
edge endpoints, first occurrences kept, in the insertion order of the
adjacency map. -/
def graphNodes (nodes : List String) (edges : List (String × String)) : List String :=
  dedupFirst (nodes ++ edges.flatMap (fun e => [e.1, e.2]))

/-- The key list of the in-degree map after the build phase: per edge the
target is inserted before the source. -/
def indegKeys (nodes : List String) (edges : List (String × String)) : List String :=
  dedupFirst (nodes ++ edges.flatMap (fun e => [e.2, e.1]))

/-- The edge relation of the graph. -/
def edgeRel (edges : List (String × String)) (a b : String) : Prop :=
  (a, b) ∈ edges

/-- Existence of a directed cycle: a nonempty edge path from some node to itself. -/
def HasCycleIn (edges : List (String × String)) : Prop :=
  ∃ v, Relation.TransGen (edgeRel edges) v v

/-- Multiplicity of the edge from n to v in the edge list. -/
def edgeMult (edges : List (String × String)) (n v : String) : Nat :=
  edges.countP (fun e => decide (e.1 = n) && decide (e.2 = v))

/-- Invariant of the Kahn while-loop of topoSort, stated over the fixed edge
list and the fixed key list K of the in-degree map: the stored in-degree of
every key v is its total in-degree minus the in-edges from already emitted
nodes; the emitted order and the queue are disjoint lists of keys without
duplicates; an emitted target is preceded by its source in the order; a
queued node already has all its sources emitted; and a node neither emitted
nor queued still has an in-edge from an unemitted source. -/
def KahnInv (edges : List (String × String)) (K : List String)
    (indeg : List (String × Int)) (q order : List String) : Prop :=
  (∀ v, mget indeg v =
    if v ∈ K then some ((indegCount edges v : Int) - inCnt edges order v) else none)
  ∧ (order ++ q).Nodup
  ∧ (∀ x ∈ order, x ∈ K)
  ∧ (∀ x ∈ q, x ∈ K)
  ∧ (∀ e ∈ edges, e.2 ∈ order → e.1 ≠ e.2 ∧ [e.1, e.2].Sublist order)
  ∧ (∀ e ∈ edges, e.2 ∈ q → e.1 ∈ order)
  ∧ (∀ v ∈ K, v ∉ order → v ∉ q → inCnt edges order v < indegCount edges v)

/-- Invariant of the neighbor-processing fold inside one iteration of the
Kahn while-loop: n is the node just appended to the order and p the prefix
of its neighbor list already processed. -/
def KahnFoldInv (edges : List (String × String)) (K : List String) (n : String)
    (order : List String) (p : List String)
    (st : List (String × Int) × List String) : Prop :=
  (∀ v, mget st.1 v = if v ∈ K then
      some ((indegCount edges v : Int) - inCnt edges order v - p.count v) else none)
  ∧ ((order ++ [n]) ++ st.2).Nodup
  ∧ (∀ x ∈ st.2, x ∈ K)
  ∧ (∀ v ∈ st.2, (∀ e ∈ edges, e.2 = v → e.1 ∈ order ++ [n]) ∧
      p.count v = edgeMult edges n v)
  ∧ (∀ v ∈ K, v ∉ order ++ [n] → v ∉ st.2 →
      (indegCount edges v : Int) - inCnt edges order v - p.count v ≠ 0)

end DegreeAuditor


/-! Lemmas about the association-list embedding of JS Maps. -/

namespace DegreeAuditor

/-- The key list of an association map. -/
def mkeys {κ α : Type} (m : List (κ × α)) : List κ :=
  m.map Prod.fst

theorem any_key_iff {κ α : Type} [DecidableEq κ] (m : List (κ × α)) (k : κ) :
    m.any (fun p => p.1 = k) = true ↔ k ∈ mkeys m := by
  induction m with
  | nil => simp [mkeys]
  | cons p t ih => by_cases hp : p.1 = k <;> simp [mkeys, hp, ← ih] <;> tauto

theorem mget_eq_none_iff {κ α : Type} [DecidableEq κ] (m : List (κ × α)) (k : κ) :
    mget m k = none ↔ k ∉ mkeys m := by
  induction m with
  | nil => simp [mget, mkeys]
  | cons p t ih =>
    by_cases hp : p.1 = k <;>
      simp [mget, mkeys, List.find?_cons, hp] at ih ⊢ <;> tauto

theorem mget_cons {κ α : Type} [DecidableEq κ] (p : κ × α) (t : List (κ × α)) (k : κ) :
    mget (p :: t) k = if p.1 = k then some p.2 else mget t k := by
  by_cases hp : p.1 = k <;> simp [mget, List.find?_cons, hp]

theorem mget_mem {κ α : Type} [DecidableEq κ] {m : List (κ × α)} {k : κ} {v : α}
    (h : mget m k = some v) : (k, v) ∈ m := by
  induction m with
  | nil => simp [mget] at h
  | cons p t ih =>
    rcases p with ⟨a, b⟩
    rw [mget_cons] at h
    by_cases hp : a = k
    · simp [hp] at h
      subst hp
      subst h
      exact List.mem_cons_self _ _
    · simp [hp] at h
      exact List.mem_cons_of_mem _ (ih h)

theorem mget_map_update {κ α : Type} [DecidableEq κ] (m : List (κ × α)) (k k2 : κ) (v : α) :
    mget (m.map (fun p => if p.1 = k then (k, v) else p)) k2 =
      if k2 = k then (if m.any (fun p => p.1 = k) then some v else none)
      else mget m k2 := by
  induction m with
  | nil => by_cases hk : k2 = k <;> simp [mget, hk]
  | cons p t ih =>
    by_cases hp : p.1 = k
    · by_cases hk : k2 = k
      · subst hk
        simp only [List.map_cons, hp, if_true, List.any_cons]
        rw [mget_cons]
        simp [hp]
      · simp only [List.map_cons, hp, if_true]
        rw [mget_cons, mget_cons]
        have : ¬ ((k, v).1 = k2) := fun h => hk (h.symm)
        simp only [this, if_false]
        have : ¬ (p.1 = k2) := fun h => hk ((hp ▸ h).symm ▸ rfl)
        rw [ih]
        simp [hk, this]
    · by_cases hk : k2 = k
      · subst hk
        simp only [List.map_cons, hp, if_false]
        rw [mget_cons]
        have hpk : ¬ (p.1 = k2) := hp
        simp only [hpk, if_false]
        rw [ih]
        have hd : (decide (p.1 = k2)) = false := by simp [hp]
        simp only [List.any_cons, hd, Bool.false_or]
        simp
      · simp only [List.map_cons, hp, if_false]
        rw [mget_cons, mget_cons, ih]
        simp [hk]

theorem mget_append_single {κ α : Type} [DecidableEq κ] (m : List (κ × α)) (k k2 : κ) (v : α)
    (hm : k ∉ mkeys m) :
    mget (m ++ [(k, v)]) k2 = if k2 = k then some v else mget m k2 := by
  induction m with
  | nil =>
    by_cases hk : k2 = k
    · simp [mget, List.find?_cons, hk]
    · rw [List.nil_append, mget_cons]
      have : ¬ ((k, v).1 = k2) := fun h => hk h.symm
      simp [this, hk, mget]
  | cons p t ih =>
    have hpk : ¬ (p.1 = k) := by
      intro h
      exact hm (by simp [mkeys, h])
    have ht : k ∉ mkeys t := by
      intro h
      exact hm (by simp [mkeys] at h ⊢; tauto)
    rw [List.cons_append, mget_cons, mget_cons, ih ht]
    by_cases hp2 : p.1 = k2
    · have hk : ¬ (k2 = k) := fun h => hpk (h ▸ hp2)
      simp [hp2, hk]
    · simp [hp2]

theorem mget_mset_eq {κ α : Type} [DecidableEq κ] (m : List (κ × α)) (k k2 : κ) (v : α) :
    mget (mset m k v) k2 = if k2 = k then some v else mget m k2 := by
  unfold mset
  by_cases hm : m.any (fun p => p.1 = k)
  · simp only [hm, if_true]
    rw [mget_map_update]
    simp [hm]
  · simp only [hm, Bool.false_eq_true, if_false]
    apply mget_append_single
    rw [← any_key_iff]
    simpa using hm

theorem mget_mset_self {κ α : Type} [DecidableEq κ] (m : List (κ × α)) (k : κ) (v : α) :
    mget (mset m k v) k = some v := by
  simp [mget_mset_eq]

theorem mget_mset_ne {κ α : Type} [DecidableEq κ] (m : List (κ × α)) (k k2 : κ) (v : α)
    (h : k2 ≠ k) : mget (mset m k v) k2 = mget m k2 := by
  simp [mget_mset_eq, h]

theorem mkeys_mset {κ α : Type} [DecidableEq κ] (m : List (κ × α)) (k : κ) (v : α) :
    mkeys (mset m k v) = if k ∈ mkeys m then mkeys m else mkeys m ++ [k] := by
  unfold mset
  by_cases hm : m.any (fun p => p.1 = k)
  · have hk : k ∈ mkeys m := (any_key_iff m k).mp hm
    simp only [hm, if_true, hk]
    unfold mkeys
    rw [List.map_map]
    apply List.map_congr_left
    intro p _
    by_cases hp : p.1 = k <;> simp [hp]
  · have hk : k ∉ mkeys m := fun h => hm ((any_key_iff m k).mpr h)
    simp only [hm, Bool.false_eq_true, if_false, hk]
    simp [mkeys]

theorem length_mset {κ α : Type} [DecidableEq κ] (m : List (κ × α)) (k : κ) (v : α) :
    (mset m k v).length = if k ∈ mkeys m then m.length else m.length + 1 := by
  have h1 : (mset m k v).length = (mkeys (mset m k v)).length := by simp [mkeys]
  have h2 : m.length = (mkeys m).length := by simp [mkeys]
  rw [h1, mkeys_mset]
  by_cases hk : k ∈ mkeys m <;> simp [hk, h2]

theorem nodup_mkeys_mset {κ α : Type} [DecidableEq κ] (m : List (κ × α)) (k : κ) (v : α)
    (h : (mkeys m).Nodup) : (mkeys (mset m k v)).Nodup := by
  rw [mkeys_mset]
  by_cases hk : k ∈ mkeys m
  · simpa [hk]
  · simp [hk, List.nodup_append, h]

theorem mget_of_mem_nodup {κ α : Type} [DecidableEq κ] {m : List (κ × α)} {k : κ} {v : α}
    (hnd : (mkeys m).Nodup) (h : (k, v) ∈ m) : mget m k = some v := by
  induction m with
  | nil => simp at h
  | cons p t ih =>
    rw [mget_cons]
    rw [List.mem_cons] at h
    rcases h with h | h
    · simp [← h]
    · have hk : ¬ (p.1 = k) := by
        intro he
        simp only [mkeys, List.map_cons, List.nodup_cons] at hnd
        exact hnd.1 (he ▸ (by simpa [mkeys] using List.mem_map_of_mem Prod.fst h))
      have hnd2 : (mkeys t).Nodup := by
        simp only [mkeys, List.map_cons, List.nodup_cons] at hnd
        exact hnd.2
      simp [hk, ih hnd2 h]

theorem mem_mkeys_iff_mget_isSome {κ α : Type} [DecidableEq κ] (m : List (κ × α)) (k : κ) :
    k ∈ mkeys m ↔ (mget m k).isSome := by
  rcases hg : mget m k with _ | v
  · rw [mget_eq_none_iff] at hg
    simp [hg]
  · have hmem := mget_mem hg
    simp only [Option.isSome_some, iff_true]
    simpa [mkeys] using List.mem_map_of_mem Prod.fst hmem

theorem mhas_iff {κ α : Type} [DecidableEq κ] (m : List (κ × α)) (k : κ) :
    mhas m k = true ↔ k ∈ mkeys m := by
  unfold mhas
  exact any_key_iff m k

end DegreeAuditor

/-! Lemmas about setAdd, dedupFirst and the counting helpers. -/

namespace DegreeAuditor

theorem mem_setAdd {s : List String} {x y : String} :
    x ∈ setAdd s y ↔ x = y ∨ x ∈ s := by
  unfold setAdd
  by_cases h : y ∈ s
  · simp only [h, if_true]
    constructor
    · exact Or.inr
    · rintro (rfl | hx)
      · exact h
      · exact hx
  · simp only [h, if_false]
    simp [or_comm]

theorem nodup_setAdd {s : List String} (h : s.Nodup) (y : String) :
    (setAdd s y).Nodup := by
  unfold setAdd
  by_cases hy : y ∈ s
  · simpa [hy]
  · simp [hy, List.nodup_append, h]

theorem setAdd_isPrefix (s : List String) (y : String) :
    s <+: setAdd s y := by
  unfold setAdd
  by_cases hy : y ∈ s
  · simp [hy]
  · simp [hy]

theorem foldl_setAdd_mem : ∀ (l acc : List String) (x : String),
    x ∈ l.foldl setAdd acc ↔ x ∈ acc ∨ x ∈ l := by
  intro l
  induction l with
  | nil => simp
  | cons a t ih =>
    intro acc x
    simp only [List.foldl_cons, ih, mem_setAdd, List.mem_cons]
    tauto

theorem foldl_setAdd_nodup : ∀ (l acc : List String), acc.Nodup →
    (l.foldl setAdd acc).Nodup := by
  intro l
  induction l with
  | nil => intro acc h; simpa
  | cons a t ih =>
    intro acc h
    exact ih _ (nodup_setAdd h a)

theorem mem_dedupFirst {l : List String} {x : String} :
    x ∈ dedupFirst l ↔ x ∈ l := by
  unfold dedupFirst
  rw [foldl_setAdd_mem]
  simp

theorem nodup_dedupFirst (l : List String) : (dedupFirst l).Nodup := by
  unfold dedupFirst
  exact foldl_setAdd_nodup l [] (by simp)

theorem dedupFirst_append (l l2 : List String) :
    dedupFirst (l ++ l2) = l2.foldl setAdd (dedupFirst l) := by
  unfold dedupFirst
  rw [List.foldl_append]

theorem edgeTargets_append (l : List (String × String)) (e : String × String) (u : String) :
    edgeTargets (l ++ [e]) u =
      edgeTargets l u ++ (if e.1 = u then [e.2] else []) := by
  unfold edgeTargets
  rw [List.filter_append]
  by_cases h : e.1 = u <;> simp [h]

theorem indegCount_append (l : List (String × String)) (e : String × String) (v : String) :
    indegCount (l ++ [e]) v = indegCount l v + (if e.2 = v then 1 else 0) := by
  unfold indegCount
  rw [List.countP_append]
  by_cases h : e.2 = v <;> simp [h]

theorem edgeTargets_eq_nil (l : List (String × String)) (u : String)
    (h : ∀ e ∈ l, e.1 ≠ u) : edgeTargets l u = [] := by
  unfold edgeTargets
  rw [List.filter_eq_nil_iff.mpr]
  · rfl
  · intro e he
    simp [h e he]

theorem indegCount_eq_zero (l : List (String × String)) (v : String)
    (h : ∀ e ∈ l, e.2 ≠ v) : indegCount l v = 0 := by
  unfold indegCount
  rw [List.countP_eq_zero.mpr]
  intro e he
  simp [h e he]

theorem inCnt_le_indegCount (edges : List (String × String)) (S : List String) (v : String) :
    inCnt edges S v ≤ indegCount edges v := by
  unfold inCnt indegCount
  apply List.countP_mono_left
  intro e _ h
  simp at h ⊢
  exact h.1

theorem inCnt_nil (edges : List (String × String)) (v : String) :
    inCnt edges [] v = 0 := by
  unfold inCnt
  rw [List.countP_eq_zero.mpr]
  intro e _
  simp

theorem inCnt_append_single (edges : List (String × String)) (S : List String)
    (n v : String) (hn : n ∉ S) :
    inCnt edges (S ++ [n]) v =
      inCnt edges S v + edges.countP (fun e => decide (e.2 = v) && decide (e.1 = n)) := by
  induction edges with
  | nil => rfl
  | cons e t ih =>
    simp only [inCnt, List.countP_cons] at ih ⊢
    rw [ih]
    by_cases h2 : e.2 = v
    · by_cases hN : e.1 = n
      · have hS : e.1 ∉ S := fun hs => hn (hN ▸ hs)
        simp [h2, hS, hN, hn] <;> omega
      · by_cases hS : e.1 ∈ S
        · simp [h2, hN, hS] <;> omega
        · simp [h2, hN, hS]
    · simp [h2]

end DegreeAuditor

/-! Characterization of the build phase of topoSort. -/

namespace DegreeAuditor

theorem foldl_mset_const {β : Type} (d : β) :
    ∀ (ns : List String) (acc : List (String × β)),
      mkeys (ns.foldl (fun a n => mset a n d) acc) = ns.foldl setAdd (mkeys acc)
    ∧ (∀ u, mget (ns.foldl (fun a n => mset a n d) acc) u =
        if u ∈ ns then some d else mget acc u) := by
  intro ns
  induction ns with
  | nil => intro acc; simp
  | cons n t ih =>
    intro acc
    obtain ⟨ihk, ihg⟩ := ih (mset acc n d)
    constructor
    · rw [List.foldl_cons, ihk, List.foldl_cons]
      congr 1
      rw [mkeys_mset]
      unfold setAdd
      by_cases h : n ∈ mkeys acc <;> simp [h]
    · intro u
      rw [List.foldl_cons, ihg u]
      by_cases hu : u ∈ t
      · simp [hu, List.mem_cons]
      · by_cases hn : u = n
        · subst hn
          simp [hu, mget_mset_self]
        · simp [hu, hn, mget_mset_ne acc n u d hn]


end DegreeAuditor

namespace DegreeAuditor

theorem mkeys_mset_setAdd {α : Type} (m : List (String × α)) (k : String) (v : α) :
    mkeys (mset m k v) = setAdd (mkeys m) k := by
  rw [mkeys_mset]
  unfold setAdd
  by_cases h : k ∈ mkeys m <;> simp [h]

theorem flat_mem_fst {done : List (String × String)} {e : String × String}
    (h : e ∈ done) : e.1 ∈ done.flatMap (fun e => [e.1, e.2]) := by
  rw [List.mem_flatMap]
  exact ⟨e, h, by simp⟩

theorem flat_mem_snd {done : List (String × String)} {e : String × String}
    (h : e ∈ done) : e.2 ∈ done.flatMap (fun e => [e.1, e.2]) := by
  rw [List.mem_flatMap]
  exact ⟨e, h, by simp⟩

theorem flat2_mem_fst {done : List (String × String)} {e : String × String}
    (h : e ∈ done) : e.1 ∈ done.flatMap (fun e => [e.2, e.1]) := by
  rw [List.mem_flatMap]
  exact ⟨e, h, by simp⟩

theorem flat2_mem_snd {done : List (String × String)} {e : String × String}
    (h : e ∈ done) : e.2 ∈ done.flatMap (fun e => [e.2, e.1]) := by
  rw [List.mem_flatMap]
  exact ⟨e, h, by simp⟩

theorem setAdd_of_mem {s : List String} {x : String} (h : x ∈ s) :
    setAdd s x = s := by
  simp [setAdd, h]

theorem mkeys_condInsert {α : Type} (m : List (String × α)) (k : String) (v : α) :
    mkeys (if mhas m k then m else mset m k v) = setAdd (mkeys m) k := by
  by_cases h : mhas m k
  · have hm := (mhas_iff m k).mp h
    simp [h, setAdd_of_mem hm]
  · simp [h, mkeys_mset_setAdd]

theorem mget_condInsert {α : Type} (m : List (String × α)) (k : String) (v : α) (u : String) :
    mget (if mhas m k then m else mset m k v) u =
      if u = k ∧ k ∉ mkeys m then some v else mget m u := by
  by_cases h : mhas m k
  · have hm := (mhas_iff m k).mp h
    simp [h, hm]
  · have hm : k ∉ mkeys m := fun hc => h ((mhas_iff m k).mpr hc)
    by_cases hu : u = k
    · subst hu
      simp [h, hm, mget_mset_self]
    · simp [h, hm, hu, mget_mset_ne m k u v hu]

theorem dedupFirst_append_two (l : List String) (a b : String) :
    dedupFirst (l ++ [a, b]) = setAdd (setAdd (dedupFirst l) a) b := by
  rw [dedupFirst_append]
  rfl

/-- One step of the build fold preserves the characterization of the
adjacency and in-degree maps. -/
theorem topoBuildStep_spec (nodes : List String) (done : List (String × String))
    (e : String × String)
    (st : List (String × List String) × List (String × Int))
    (h1 : mkeys st.1 = dedupFirst (nodes ++ done.flatMap (fun e => [e.1, e.2])))
    (h2 : mkeys st.2 = dedupFirst (nodes ++ done.flatMap (fun e => [e.2, e.1])))
    (h3 : ∀ u, mget st.1 u =
      if u ∈ mkeys st.1 then some (edgeTargets done u) else none)
    (h4 : ∀ v, mget st.2 v =
      if v ∈ mkeys st.2 then some ((indegCount done v : Int)) else none) :
    mkeys (topoBuildStep st e).1 =
        dedupFirst (nodes ++ (done ++ [e]).flatMap (fun e => [e.1, e.2]))
    ∧ mkeys (topoBuildStep st e).2 =
        dedupFirst (nodes ++ (done ++ [e]).flatMap (fun e => [e.2, e.1]))
    ∧ (∀ u, mget (topoBuildStep st e).1 u =
        if u ∈ mkeys (topoBuildStep st e).1 then some (edgeTargets (done ++ [e]) u)
        else none)
    ∧ (∀ v, mget (topoBuildStep st e).2 v =
        if v ∈ mkeys (topoBuildStep st e).2 then some ((indegCount (done ++ [e]) v : Int))
        else none) := by
  have hsrc : ∀ u, u ∉ mkeys st.1 → edgeTargets done u = [] := by
    intro u hu
    apply edgeTargets_eq_nil
    intro e2 he2 hne
    apply hu
    rw [h1, mem_dedupFirst, List.mem_append]
    exact Or.inr (hne ▸ flat_mem_fst he2)
  have htgt : ∀ v, v ∉ mkeys st.2 → indegCount done v = 0 := by
    intro v hv
    apply indegCount_eq_zero
    intro e2 he2 hne
    apply hv
    rw [h2, mem_dedupFirst, List.mem_append]
    exact Or.inr (hne ▸ flat2_mem_snd he2)
  have keyr1 : dedupFirst (nodes ++ (done ++ [e]).flatMap (fun e2 => [e2.1, e2.2]))
      = setAdd (setAdd (mkeys st.1) e.1) e.2 := by
    rw [List.flatMap_append, ← List.append_assoc]
    have : ([e] : List (String × String)).flatMap (fun e2 => [e2.1, e2.2]) = [e.1, e.2] := by
      simp
    rw [this, dedupFirst_append_two, ← h1]
  have keyr2 : dedupFirst (nodes ++ (done ++ [e]).flatMap (fun e2 => [e2.2, e2.1]))
      = setAdd (setAdd (mkeys st.2) e.2) e.1 := by
    rw [List.flatMap_append, ← List.append_assoc]
    have : ([e] : List (String × String)).flatMap (fun e2 => [e2.2, e2.1]) = [e.2, e.1] := by
      simp
    rw [this, dedupFirst_append_two, ← h2]
  unfold topoBuildStep
  simp only []
  set adj := st.1 with hadj
  set indeg := st.2 with hindeg
  set A1 := if mhas adj e.1 then adj else mset adj e.1 [] with hA1d
  set A2 := if mhas A1 e.2 then A1 else mset A1 e.2 [] with hA2d
  have kA1 : mkeys A1 = setAdd (mkeys adj) e.1 := mkeys_condInsert adj e.1 []
  have kA2 : mkeys A2 = setAdd (mkeys A1) e.2 := mkeys_condInsert A1 e.2 []
  have gA1 : ∀ u, mget A1 u = if u = e.1 ∧ e.1 ∉ mkeys adj then some [] else mget adj u :=
    mget_condInsert adj e.1 []
  have gA2 : ∀ u, mget A2 u = if u = e.2 ∧ e.2 ∉ mkeys A1 then some [] else mget A1 u :=
    mget_condInsert A1 e.2 []
  have he1A1 : e.1 ∈ mkeys A1 := by rw [kA1, mem_setAdd]; exact Or.inl rfl
  have he1A2 : e.1 ∈ mkeys A2 := by rw [kA2, mem_setAdd]; exact Or.inr he1A1
  have ge1A2 : mget A2 e.1 = some (edgeTargets done e.1) := by
    rw [gA2]
    by_cases h12 : e.1 = e.2 ∧ e.2 ∉ mkeys A1
    · exact absurd (h12.1 ▸ he1A1) h12.2
    · simp only [h12, if_false]
      rw [gA1]
      by_cases hm : e.1 ∈ mkeys adj
      · simp only [hm, not_true, and_false, if_false]
        rw [h3 e.1, if_pos hm]
      · simp [hm, hsrc e.1 hm]
  have kA3 : mkeys (mset A2 e.1 ((mget A2 e.1).getD [] ++ [e.2]))
      = setAdd (setAdd (mkeys adj) e.1) e.2 := by
    rw [mkeys_mset_setAdd, kA2, kA1, setAdd_of_mem]
    rw [kA2, kA1] at he1A2
    exact he1A2
  set I1 := mset indeg e.2 ((mget indeg e.2).getD 0 + 1) with hI1d
  set I2 := if mhas I1 e.1 then I1 else mset I1 e.1 0 with hI2d
  have kI1 : mkeys I1 = setAdd (mkeys indeg) e.2 := mkeys_mset_setAdd indeg e.2 _
  have kI2 : mkeys I2 = setAdd (setAdd (mkeys indeg) e.2) e.1 := by
    rw [hI2d, mkeys_condInsert, kI1]
  have gI2 : ∀ v, mget I2 v = if v = e.1 ∧ e.1 ∉ mkeys I1 then some 0 else mget I1 v :=
    mget_condInsert I1 e.1 0
  have gI1e2 : mget I1 e.2 = some ((indegCount done e.2 : Int) + 1) := by
    rw [hI1d, mget_mset_self]
    by_cases hm : e.2 ∈ mkeys indeg
    · rw [h4 e.2, if_pos hm]
      simp
    · rw [h4 e.2, if_neg hm]
      simp [htgt e.2 hm]
  refine ⟨?_, ?_, ?_, ?_⟩
  · rw [kA3, keyr1]
  · rw [kI2, keyr2]
  · intro u
    rw [kA3]
    by_cases hu : u = e.1
    · rw [hu, mget_mset_self, ge1A2]
      have hmem : e.1 ∈ setAdd (setAdd (mkeys adj) e.1) e.2 :=
        mem_setAdd.mpr (Or.inr (mem_setAdd.mpr (Or.inl rfl)))
      rw [if_pos hmem, edgeTargets_append]
      simp
    · rw [mget_mset_ne A2 e.1 u _ hu, gA2]
      have het : edgeTargets (done ++ [e]) u = edgeTargets done u := by
        rw [edgeTargets_append]
        have hne : ¬ (e.1 = u) := fun h => hu h.symm
        simp [hne]
      rw [het]
      by_cases hu2 : u = e.2 ∧ e.2 ∉ mkeys A1
      · have hnadj : u ∉ mkeys adj := by
          intro hc
          apply hu2.2
          rw [kA1, mem_setAdd]
          exact Or.inr (hu2.1 ▸ hc)
        have hmem : u ∈ setAdd (setAdd (mkeys adj) e.1) e.2 :=
          mem_setAdd.mpr (Or.inl hu2.1)
        rw [if_pos hu2, if_pos hmem, hsrc u hnadj]
      · simp only [hu2, if_false]
        rw [gA1]
        have hne1 : ¬ (u = e.1 ∧ e.1 ∉ mkeys adj) := fun hc => hu hc.1
        simp only [hne1, if_false]
        rw [h3 u]
        have hiff : (u ∈ setAdd (setAdd (mkeys adj) e.1) e.2) ↔ u ∈ mkeys adj := by
          constructor
          · intro hm
            rw [mem_setAdd, mem_setAdd] at hm
            rcases hm with hm | hm | hm
            · have hA1mem : e.2 ∈ mkeys A1 := by
                by_contra hc
                exact hu2 ⟨hm, hc⟩
              rw [kA1, mem_setAdd] at hA1mem
              rcases hA1mem with hc | hc
              · exact absurd (hm.trans hc) hu
              · exact hm ▸ hc
            · exact absurd hm hu
            · exact hm
          · intro hm
            rw [mem_setAdd, mem_setAdd]
            exact Or.inr (Or.inr hm)
        by_cases hm : u ∈ mkeys adj
        · rw [if_pos hm, if_pos (hiff.mpr hm)]
        · rw [if_neg hm, if_neg (fun hc => hm (hiff.mp hc))]
  · intro v
    rw [kI2]
    by_cases hv2 : v = e.2
    · have hne1 : ¬ (v = e.1 ∧ e.1 ∉ mkeys I1) := by
        rintro ⟨hv1, hn⟩
        apply hn
        rw [kI1, mem_setAdd]
        exact Or.inl (hv1.symm.trans hv2)
      rw [gI2 v, if_neg hne1, hv2, gI1e2]
      have hmem : e.2 ∈ setAdd (setAdd (mkeys indeg) e.2) e.1 :=
        mem_setAdd.mpr (Or.inr (mem_setAdd.mpr (Or.inl rfl)))
      rw [if_pos hmem, indegCount_append]
      simp
    · have hic : indegCount (done ++ [e]) v = indegCount done v := by
        rw [indegCount_append]
        have hne : ¬ (e.2 = v) := fun h => hv2 h.symm
        simp [hne]
      rw [hic, gI2 v]
      by_cases hv1 : v = e.1 ∧ e.1 ∉ mkeys I1
      · have hnindeg : v ∉ mkeys indeg := by
          intro hc
          apply hv1.2
          rw [kI1, mem_setAdd]
          exact Or.inr (hv1.1 ▸ hc)
        have hmem : v ∈ setAdd (setAdd (mkeys indeg) e.2) e.1 :=
          mem_setAdd.mpr (Or.inl hv1.1)
        rw [if_pos hv1, if_pos hmem]
        simp [htgt v hnindeg]
      · rw [if_neg hv1, hI1d, mget_mset_ne indeg e.2 v _ hv2, h4 v]
        have hiff : (v ∈ setAdd (setAdd (mkeys indeg) e.2) e.1) ↔ v ∈ mkeys indeg := by
          constructor
          · intro hm
            rw [mem_setAdd, mem_setAdd] at hm
            rcases hm with hm | hm | hm
            · have hI1mem : e.1 ∈ mkeys I1 := by
                by_contra hc
                exact hv1 ⟨hm, hc⟩
              rw [kI1, mem_setAdd] at hI1mem
              rcases hI1mem with hc | hc
              · exact absurd (hm.trans hc) hv2
              · exact hm ▸ hc
            · exact absurd hm hv2
            · exact hm
          · intro hm
            rw [mem_setAdd, mem_setAdd]
            exact Or.inr (Or.inr hm)
        by_cases hm : v ∈ mkeys indeg
        · rw [if_pos hm, if_pos (hiff.mpr hm)]
        · rw [if_neg hm, if_neg (fun hc => hm (hiff.mp hc))]

theorem topoBuild_fold (nodes : List String) :
    ∀ (es done : List (String × String))
      (st : List (String × List String) × List (String × Int)),
      mkeys st.1 = dedupFirst (nodes ++ done.flatMap (fun e => [e.1, e.2])) →
      mkeys st.2 = dedupFirst (nodes ++ done.flatMap (fun e => [e.2, e.1])) →
      (∀ u, mget st.1 u =
        if u ∈ mkeys st.1 then some (edgeTargets done u) else none) →
      (∀ v, mget st.2 v =
        if v ∈ mkeys st.2 then some ((indegCount done v : Int)) else none) →
      mkeys (es.foldl topoBuildStep st).1 =
          dedupFirst (nodes ++ (done ++ es).flatMap (fun e => [e.1, e.2]))
      ∧ mkeys (es.foldl topoBuildStep st).2 =
          dedupFirst (nodes ++ (done ++ es).flatMap (fun e => [e.2, e.1]))
      ∧ (∀ u, mget (es.foldl topoBuildStep st).1 u =
          if u ∈ mkeys (es.foldl topoBuildStep st).1 then
            some (edgeTargets (done ++ es) u) else none)
      ∧ (∀ v, mget (es.foldl topoBuildStep st).2 v =
          if v ∈ mkeys (es.foldl topoBuildStep st).2 then
            some ((indegCount (done ++ es) v : Int)) else none) := by
  intro es
  induction es with
  | nil =>
    intro done st h1 h2 h3 h4
    simpa using ⟨h1, h2, h3, h4⟩
  | cons e t ih =>
    intro done st h1 h2 h3 h4
    obtain ⟨s1, s2, s3, s4⟩ := topoBuildStep_spec nodes done e st h1 h2 h3 h4
    have := ih (done ++ [e]) (topoBuildStep st e) s1 s2 s3 s4
    rw [List.foldl_cons]
    have hap : done ++ [e] ++ t = done ++ e :: t := by
      rw [List.append_assoc, List.singleton_append]
    rw [hap] at this
    exact this

/-- Full characterization of the build phase of topoSort: the adjacency map
holds every graph-resident node with its out-neighbor list, the in-degree
map holds every graph-resident node with its in-degree. -/
theorem topoBuild_spec (nodes : List String) (edges : List (String × String)) :
    mkeys (topoBuild nodes edges).1 = graphNodes nodes edges
    ∧ mkeys (topoBuild nodes edges).2 = indegKeys nodes edges
    ∧ (∀ u, mget (topoBuild nodes edges).1 u =
        if u ∈ graphNodes nodes edges then some (edgeTargets edges u) else none)
    ∧ (∀ v, mget (topoBuild nodes edges).2 v =
        if v ∈ indegKeys nodes edges then some ((indegCount edges v : Int)) else none) := by
  have hadj := foldl_mset_const ([] : List String) nodes []
  have hindeg := foldl_mset_const (0 : Int) nodes []
  set adj0 := nodes.foldl (fun a n => mset a n ([] : List String)) [] with hadj0
  set indeg0 := nodes.foldl (fun a n => mset a n (0 : Int)) [] with hindeg0
  have k1 : mkeys adj0 = dedupFirst (nodes ++ ([] : List (String × String)).flatMap (fun e => [e.1, e.2])) := by
    rw [hadj.1]
    simp [mkeys, dedupFirst]
  have k2 : mkeys indeg0 = dedupFirst (nodes ++ ([] : List (String × String)).flatMap (fun e => [e.2, e.1])) := by
    rw [hindeg.1]
    simp [mkeys, dedupFirst]
  have g1 : ∀ u, mget adj0 u =
      if u ∈ mkeys adj0 then some (edgeTargets [] u) else none := by
    intro u
    rw [hadj.2 u, k1]
    have : edgeTargets [] u = [] := rfl
    rw [this]
    by_cases hu : u ∈ nodes
    · simp [hu, mem_dedupFirst, mget]
    · simp [hu, mem_dedupFirst, mget]
  have g2 : ∀ v, mget indeg0 v =
      if v ∈ mkeys indeg0 then some ((indegCount [] v : Int)) else none := by
    intro v
    rw [hindeg.2 v, k2]
    have : indegCount [] v = 0 := rfl
    rw [this]
    by_cases hv : v ∈ nodes
    · simp [hv, mem_dedupFirst, mget]
    · simp [hv, mem_dedupFirst, mget]
  have := topoBuild_fold nodes edges [] (adj0, indeg0) k1 k2 g1 g2
  simp only [List.nil_append] at this
  unfold topoBuild
  exact ⟨this.1, this.2.1, by
      intro u
      have h := this.2.2.1 u
      rw [this.1] at h
      exact h, by
      intro v
      have h := this.2.2.2 v
      rw [this.2.1] at h
      exact h⟩

theorem mem_graphNodes_iff (nodes : List String) (edges : List (String × String))
    (x : String) :
    x ∈ graphNodes nodes edges ↔ x ∈ nodes ∨ ∃ e ∈ edges, x = e.1 ∨ x = e.2 := by
  unfold graphNodes
  rw [mem_dedupFirst, List.mem_append, List.mem_flatMap]
  constructor
  · rintro (h | ⟨e, he, hx⟩)
    · exact Or.inl h
    · simp at hx
      exact Or.inr ⟨e, he, hx⟩
  · rintro (h | ⟨e, he, hx⟩)
    · exact Or.inl h
    · exact Or.inr ⟨e, he, by simpa using hx⟩

theorem mem_indegKeys_iff (nodes : List String) (edges : List (String × String))
    (x : String) :
    x ∈ indegKeys nodes edges ↔ x ∈ nodes ∨ ∃ e ∈ edges, x = e.1 ∨ x = e.2 := by
  unfold indegKeys
  rw [mem_dedupFirst, List.mem_append, List.mem_flatMap]
  constructor
  · rintro (h | ⟨e, he, hx⟩)
    · exact Or.inl h
    · simp at hx
      exact Or.inr ⟨e, he, hx.symm⟩
  · rintro (h | ⟨e, he, hx⟩)
    · exact Or.inl h
    · refine Or.inr ⟨e, he, ?_⟩
      simpa using hx.symm

theorem length_eq_of_nodup_mem {l1 l2 : List String} (h1 : l1.Nodup) (h2 : l2.Nodup)
    (hm : ∀ x, x ∈ l1 ↔ x ∈ l2) : l1.length = l2.length := by
  rw [← List.toFinset_card_of_nodup h1, ← List.toFinset_card_of_nodup h2]
  congr 1
  ext x
  simp [hm x]

theorem graphNodes_length_eq (nodes : List String) (edges : List (String × String)) :
    (graphNodes nodes edges).length = (indegKeys nodes edges).length := by
  apply length_eq_of_nodup_mem (nodup_dedupFirst _) (nodup_dedupFirst _)
  intro x
  have h1 := mem_graphNodes_iff nodes edges x
  have h2 := mem_indegKeys_iff nodes edges x
  unfold graphNodes at h1
  unfold indegKeys at h2
  rw [h1, h2]

end DegreeAuditor
/-! Counting lemmas for the Kahn loop invariant. -/

namespace DegreeAuditor

theorem count_edgeTargets (edges : List (String × String)) (n v : String) :
    (edgeTargets edges n).count v = edgeMult edges n v := by
  unfold edgeTargets edgeMult
  induction edges with
  | nil => rfl
  | cons e t ih =>
    by_cases h1 : e.1 = n
    · by_cases h2 : e.2 = v
      · simp [List.filter_cons, h1, h2, List.count_cons, List.countP_cons, ih]
      · simp [List.filter_cons, h1, h2, List.count_cons, List.countP_cons, ih]
    · simp [List.filter_cons, h1, List.countP_cons, ih]

theorem mem_edgeTargets {edges : List (String × String)} {n m : String} :
    m ∈ edgeTargets edges n ↔ ∃ e ∈ edges, e.1 = n ∧ e.2 = m := by
  unfold edgeTargets
  rw [List.mem_map]
  constructor
  · rintro ⟨e, he, hm⟩
    rw [List.mem_filter] at he
    exact ⟨e, he.1, by simpa using he.2, hm⟩
  · rintro ⟨e, he, h1, h2⟩
    exact ⟨e, List.mem_filter.mpr ⟨he, by simpa using h1⟩, h2⟩

theorem countP_and_eq_imp {α : Type} (l : List α) (a b : α → Bool)
    (h : l.countP (fun x => a x && b x) = l.countP a) :
    ∀ x ∈ l, a x = true → b x = true := by
  induction l with
  | nil => simp
  | cons y t ih =>
    rw [List.countP_cons, List.countP_cons] at h
    have hle : t.countP (fun x => a x && b x) ≤ t.countP a := by
      apply List.countP_mono_left
      intro x _ hx
      simp at hx
      exact hx.1
    intro x hx hax
    rcases List.mem_cons.mp hx with hx | hx
    · subst hx
      by_cases hb : b x
      · exact hb
      · exfalso
        simp [hax, hb] at h
        omega
    · apply ih ?_ x hx hax
      by_cases hay : a y
      · by_cases hby : b y
        · simp [hay, hby] at h
          omega
        · simp [hay, hby] at h
          omega
      · simp [hay] at h
        omega

theorem inCnt_full_imp {edges : List (String × String)} {S : List String} {v : String}
    (h : inCnt edges S v = indegCount edges v) :
    ∀ e ∈ edges, e.2 = v → e.1 ∈ S := by
  intro e he h2
  have := countP_and_eq_imp edges (fun e => decide (e.2 = v)) (fun e => decide (e.1 ∈ S))
    (by unfold inCnt indegCount at h; simpa using h) e he (by simpa using h2)
  simpa using this

theorem inCnt_lt_exists {edges : List (String × String)} {S : List String} {v : String}
    (h : inCnt edges S v < indegCount edges v) :
    ∃ e ∈ edges, e.2 = v ∧ e.1 ∉ S := by
  by_contra hc
  push_neg at hc
  have : indegCount edges v ≤ inCnt edges S v := by
    unfold inCnt indegCount
    apply List.countP_mono_left
    intro e he h2
    simp only [Bool.and_eq_true, decide_eq_true_eq]
    simp only [decide_eq_true_eq] at h2
    exact ⟨h2, hc e he h2⟩
  omega

theorem inCnt_append_n (edges : List (String × String)) (S : List String)
    (n v : String) (hn : n ∉ S) :
    inCnt edges (S ++ [n]) v = inCnt edges S v + edgeMult edges n v := by
  rw [inCnt_append_single edges S n v hn]
  congr 1
  unfold edgeMult
  apply List.countP_congr
  intro e _
  by_cases h1 : e.1 = n <;> by_cases h2 : e.2 = v <;> simp [h1, h2]

end DegreeAuditor

/-! Preservation of the fold invariant by the neighbor-processing loop. -/

namespace DegreeAuditor

theorem processNeighbors_inv (edges : List (String × String)) (K : List String)
    (n : String) (order : List String)
    (hEK : ∀ e ∈ edges, e.1 ∈ K ∧ e.2 ∈ K)
    (hnorder : n ∉ order)
    (hnIn : ∀ e ∈ edges, e.2 = n → e.1 ∈ order)
    (hOrd : ∀ e ∈ edges, e.2 ∈ order → e.1 ≠ e.2 ∧ [e.1, e.2].Sublist order) :
    ∀ (s p : List String) (st : List (String × Int) × List String),
      p ++ s = edgeTargets edges n →
      KahnFoldInv edges K n order p st →
      KahnFoldInv edges K n order (edgeTargets edges n) (processNeighbors s st) := by
  intro s
  induction s with
  | nil =>
    intro p st hps hF
    rw [List.append_nil] at hps
    rw [← hps]
    exact hF
  | cons m s2 ih =>
    intro p st hps hF
    obtain ⟨indeg, q⟩ := st
    obtain ⟨F1, F2, F3, F4, F5⟩ := hF
    simp only [] at F1 F3 F4 F5
    -- m is a target of an edge from n
    have hmET : m ∈ edgeTargets edges n := by
      rw [← hps]
      simp
    obtain ⟨em, hem, hem1, hem2⟩ := mem_edgeTargets.mp hmET
    have hmK : m ∈ K := hem2 ▸ (hEK em hem).2
    -- counting the occurrences of m among the neighbors of n
    have hcnt : p.count m + (1 + s2.count m) = edgeMult edges n m := by
      have h1 : (p ++ m :: s2).count m = (edgeTargets edges n).count m := by rw [hps]
      rw [count_edgeTargets] at h1
      rw [List.count_append, List.count_cons] at h1
      simp at h1
      omega
    have hmq : m ∉ q := by
      intro hq
      have := (F4 m hq).2
      omega
    have hmn : m ≠ n := by
      intro he
      have := hnIn em (by exact hem) (he ▸ hem2)
      rw [hem1] at this
      exact hnorder this
    have hmorder : m ∉ order := by
      intro ho
      have hsub := (hOrd em hem (hem2.symm ▸ ho)).2
      have : em.1 ∈ order := hsub.mem (by simp)
      rw [hem1] at this
      exact hnorder this
    have hmon : m ∉ order ++ [n] := by
      rw [List.mem_append]
      rintro (h | h)
      · exact hmorder h
      · exact hmn (by simpa using h)
    -- the stored value of m and the decremented state
    have hgm : mget indeg m =
        some ((indegCount edges m : Int) - inCnt edges order m - p.count m) := by
      rw [F1 m, if_pos hmK]
    have hstep : processNeighbors (m :: s2) (indeg, q) =
        processNeighbors s2
          (mset indeg m ((indegCount edges m : Int) - inCnt edges order m - p.count m - 1),
           if ((indegCount edges m : Int) - inCnt edges order m - p.count m - 1) = 0
           then q ++ [m] else q) := by
      simp only [processNeighbors, hgm, Option.getD_some]
    rw [hstep]
    set c := (indegCount edges m : Int) - inCnt edges order m - p.count m with hc
    have happ : (p ++ [m]) ++ s2 = edgeTargets edges n := by
      rw [List.append_assoc, List.singleton_append, hps]
    have hcount2 : ∀ v, (p ++ [m]).count v = if v = m then p.count v + 1 else p.count v := by
      intro v
      rw [List.count_append]
      by_cases hv : v = m
      · simp [hv]
      · simp [hv]
    have hF1n : ∀ v, mget (mset indeg m (c - 1)) v = if v ∈ K then
        some ((indegCount edges v : Int) - inCnt edges order v - (p ++ [m]).count v)
        else none := by
      intro v
      by_cases hv : v = m
      · rw [hv, mget_mset_self, if_pos hmK, hcount2 m, if_pos rfl]
        push_cast
        ring_nf
      · rw [mget_mset_ne indeg m v _ hv, F1 v, hcount2 v, if_neg hv]
    by_cases hd : c - 1 = 0
    · -- the decrement reached zero: m is pushed onto the queue
      rw [if_pos hd]
      apply ih (p ++ [m]) _ happ
      have hICm : (indegCount edges m : Int) = inCnt edges order m + (p.count m + 1) := by
        omega
      have hle1 : p.count m + 1 ≤ edgeMult edges n m := by omega
      have hinApp : inCnt edges (order ++ [n]) m =
          inCnt edges order m + edgeMult edges n m := inCnt_append_n edges order n m hnorder
      have hle2 : inCnt edges (order ++ [n]) m ≤ indegCount edges m :=
        inCnt_le_indegCount edges _ m
      have heq1 : p.count m + 1 = edgeMult edges n m := by omega
      have heq2 : inCnt edges (order ++ [n]) m = indegCount edges m := by omega
      have hin_edges : ∀ e ∈ edges, e.2 = m → e.1 ∈ order ++ [n] :=
        inCnt_full_imp heq2
      refine ⟨hF1n, ?_, ?_, ?_, ?_⟩
      · simp only []
        rw [← List.append_assoc]
        rw [List.nodup_append]
        refine ⟨F2, by simp, ?_⟩
        intro x hx
        simp only [List.mem_singleton]
        intro he
        subst he
        rw [List.mem_append] at hx
        rcases hx with hx | hx
        · exact hmon hx
        · exact hmq hx
      · intro x hx
        simp only [] at hx
        rw [List.mem_append] at hx
        rcases hx with hx | hx
        · exact F3 x hx
        · simp at hx
          exact hx ▸ hmK
      · intro v hv
        simp only [] at hv
        rw [List.mem_append] at hv
        rcases hv with hv | hv
        · have hvm : v ≠ m := fun he => hmq (he ▸ hv)
          refine ⟨(F4 v hv).1, ?_⟩
          rw [hcount2 v, if_neg hvm]
          exact (F4 v hv).2
        · simp at hv
          subst hv
          refine ⟨hin_edges, ?_⟩
          rw [hcount2 v, if_pos rfl]
          exact heq1
      · intro v hvK hvon hvq
        simp only [] at hvq
        rw [List.mem_append] at hvq
        push_neg at hvq
        have hvm : v ≠ m := fun he => hvq.2 (by simp [he])
        rw [hcount2 v, if_neg hvm]
        exact F5 v hvK hvon hvq.1
    · -- the decrement did not reach zero: the queue is unchanged
      rw [if_neg hd]
      apply ih (p ++ [m]) _ happ
      refine ⟨hF1n, ?_, F3, ?_, ?_⟩
      · simpa using F2
      · intro v hv
        have hvm : v ≠ m := fun he => hmq (he ▸ hv)
        refine ⟨(F4 v hv).1, ?_⟩
        rw [hcount2 v, if_neg hvm]
        exact (F4 v hv).2
      · intro v hvK hvon hvq
        by_cases hvm : v = m
        · rw [hcount2 v, if_pos hvm]
          subst hvm
          intro hcon
          apply hd
          omega
        · rw [hcount2 v, if_neg hvm]
          exact F5 v hvK hvon hvq

end DegreeAuditor

/-! One iteration of the Kahn while-loop preserves the loop invariant. -/

namespace DegreeAuditor

theorem kahnStep_inv (edges : List (String × String)) (K : List String)
    (n : String) (order q2 : List String) (indeg : List (String × Int))
    (hEK : ∀ e ∈ edges, e.1 ∈ K ∧ e.2 ∈ K)
    (hInv : KahnInv edges K indeg (n :: q2) order) :
    KahnInv edges K (processNeighbors (edgeTargets edges n) (indeg, q2)).1
      (processNeighbors (edgeTargets edges n) (indeg, q2)).2 (order ++ [n]) := by
  obtain ⟨I1, I2, I3, I4, I5, I6, I7⟩ := hInv
  have hnK : n ∈ K := I4 n (by simp)
  have hnorder : n ∉ order := by
    rw [List.nodup_append] at I2
    intro hc
    exact I2.2.2 hc (by simp)
  have hnIn : ∀ e ∈ edges, e.2 = n → e.1 ∈ order := by
    intro e he h2
    exact I6 e he (by simp [h2])
  have hF0 : KahnFoldInv edges K n order [] (indeg, q2) := by
    refine ⟨?_, ?_, ?_, ?_, ?_⟩
    · intro v
      rw [I1 v]
      by_cases hv : v ∈ K <;> simp [hv]
    · simp only []
      have : order ++ n :: q2 = (order ++ [n]) ++ q2 := by
        rw [List.append_assoc, List.singleton_append]
      rw [this] at I2
      exact I2
    · intro x hx
      exact I4 x (by simp [hx])
    · intro v hv
      simp only [] at hv
      constructor
      · intro e he h2
        rw [List.mem_append]
        exact Or.inl (I6 e he (by simp [h2, hv]))
      · simp only [List.count_nil]
        by_contra hc
        have hpos : 0 < edgeMult edges n v := by omega
        unfold edgeMult at hpos
        rw [List.countP_pos_iff] at hpos
        obtain ⟨e, he, hp⟩ := hpos
        simp only [Bool.and_eq_true, decide_eq_true_eq] at hp
        have : e.1 ∈ order := I6 e he (by simp [hp.2, hv])
        rw [hp.1] at this
        exact hnorder this
    · intro v hvK hvon hvq
      rw [List.mem_append] at hvon
      push_neg at hvon
      have hvn : v ≠ n := fun he => hvon.2 (by simp [he])
      have := I7 v hvK hvon.1 (by simp [hvn, hvq])
      simp only [List.count_nil]
      omega
  have hFinal := processNeighbors_inv edges K n order hEK hnorder hnIn I5
    (edgeTargets edges n) [] (indeg, q2) (by simp) hF0
  obtain ⟨G1, G2, G3, G4, G5⟩ := hFinal
  refine ⟨?_, G2, ?_, G3, ?_, ?_, ?_⟩
  · intro v
    rw [G1 v]
    by_cases hv : v ∈ K
    · rw [if_pos hv, if_pos hv]
      congr 1
      rw [count_edgeTargets, inCnt_append_n edges order n v hnorder]
      push_cast
      ring
    · rw [if_neg hv, if_neg hv]
  · intro x hx
    rw [List.mem_append] at hx
    rcases hx with hx | hx
    · exact I3 x hx
    · simp at hx
      exact hx ▸ hnK
  · intro e he h2
    rw [List.mem_append] at h2
    rcases h2 with h2 | h2
    · obtain ⟨hne, hsub⟩ := I5 e he h2
      exact ⟨hne, hsub.trans (List.sublist_append_left order [n])⟩
    · simp only [List.mem_singleton] at h2
      have h1 : e.1 ∈ order := hnIn e he h2
      constructor
      · intro hc
        rw [hc, h2] at h1
        exact hnorder h1
      · have hs1 : List.Sublist [e.1] order := List.singleton_sublist.mpr h1
        have hs2 : List.Sublist [e.2] [n] := by
          rw [h2]
        have := List.Sublist.append hs1 hs2
        exact this
  · intro e he h2
    exact (G4 e.2 h2).1 e he rfl
  · intro v hvK hvon hvq
    have hne := G5 v hvK hvon hvq
    rw [count_edgeTargets] at hne
    have hle := inCnt_le_indegCount edges (order ++ [n]) v
    rw [inCnt_append_n edges order n v hnorder] at hle ⊢
    omega

end DegreeAuditor

/-! The Kahn while-loop: invariant-based correctness of the emitted order. -/

namespace DegreeAuditor

theorem length_le_of_nodup_subset {l K : List String} (hl : l.Nodup)
    (hsub : ∀ x ∈ l, x ∈ K) : l.length ≤ K.length := by
  rw [← List.toFinset_card_of_nodup hl]
  calc l.toFinset.card ≤ K.toFinset.card := by
        apply Finset.card_le_card
        intro x hx
        rw [List.mem_toFinset] at hx
        rw [List.mem_toFinset]
        exact hsub x hx
    _ ≤ K.length := List.toFinset_card_le K

theorem nodup_subset_full {l K : List String} (hK : K.Nodup) (hl : l.Nodup)
    (hsub : ∀ x ∈ l, x ∈ K) (hlen : K.length ≤ l.length) : ∀ x ∈ K, x ∈ l := by
  have hfin : l.toFinset = K.toFinset := by
    apply Finset.eq_of_subset_of_card_le
    · intro x hx
      rw [List.mem_toFinset] at hx
      rw [List.mem_toFinset]
      exact hsub x hx
    · rw [List.toFinset_card_of_nodup hl, List.toFinset_card_of_nodup hK]
      exact hlen
  intro x hx
  have : x ∈ l.toFinset := by
    rw [hfin, List.mem_toFinset]
    exact hx
  rw [List.mem_toFinset] at this
  exact this

theorem kahnLoop_spec (edges : List (String × String)) (K : List String)
    (adj : List (String × List String))
    (hEK : ∀ e ∈ edges, e.1 ∈ K ∧ e.2 ∈ K) (hKnd : K.Nodup)
    (hAdj : ∀ n ∈ K, (mget adj n).getD [] = edgeTargets edges n) :
    ∀ (fuel : Nat) (indeg : List (String × Int)) (q order : List String),
      KahnInv edges K indeg q order →
      K.length ≤ fuel + order.length →
      order <+: kahnLoop fuel indeg adj q order
      ∧ (kahnLoop fuel indeg adj q order).Nodup
      ∧ (∀ x ∈ kahnLoop fuel indeg adj q order, x ∈ K)
      ∧ (∀ e ∈ edges, e.2 ∈ kahnLoop fuel indeg adj q order →
          e.1 ≠ e.2 ∧ [e.1, e.2].Sublist (kahnLoop fuel indeg adj q order))
      ∧ (∀ v ∈ K, v ∉ kahnLoop fuel indeg adj q order →
          ∃ e ∈ edges, e.2 = v ∧ e.1 ∉ kahnLoop fuel indeg adj q order) := by
  intro fuel
  induction fuel with
  | zero =>
    intro indeg q order hInv hfuel
    obtain ⟨I1, I2, I3, I4, I5, I6, I7⟩ := hInv
    rw [List.nodup_append] at I2
    have hres : kahnLoop 0 indeg adj q order = order := rfl
    rw [hres]
    simp only [Nat.zero_add] at hfuel
    have hfull : ∀ x ∈ K, x ∈ order := nodup_subset_full hKnd I2.1 I3 hfuel
    refine ⟨List.prefix_refl order, I2.1, I3, I5, ?_⟩
    intro v hv hnot
    exact absurd (hfull v hv) hnot
  | succ fuel ih =>
    intro indeg q order hInv hfuel
    match q with
    | [] =>
      obtain ⟨I1, I2, I3, I4, I5, I6, I7⟩ := hInv
      rw [List.nodup_append] at I2
      have hres : kahnLoop (fuel + 1) indeg adj [] order = order := rfl
      rw [hres]
      refine ⟨List.prefix_refl order, I2.1, I3, I5, ?_⟩
      intro v hvK hnot
      have := I7 v hvK hnot (by simp)
      obtain ⟨e, he, h2, h1⟩ := inCnt_lt_exists this
      exact ⟨e, he, h2, h1⟩
    | n :: q2 =>
      have hnK : n ∈ K := hInv.2.2.2.1 n (by simp)
      have hres : kahnLoop (fuel + 1) indeg adj (n :: q2) order =
          kahnLoop fuel (processNeighbors (edgeTargets edges n) (indeg, q2)).1 adj
            (processNeighbors (edgeTargets edges n) (indeg, q2)).2 (order ++ [n]) := by
        show kahnLoop fuel (processNeighbors ((mget adj n).getD []) (indeg, q2)).1 adj
            (processNeighbors ((mget adj n).getD []) (indeg, q2)).2 (order ++ [n]) =
          _
        rw [hAdj n hnK]
      rw [hres]
      have hInv2 := kahnStep_inv edges K n order q2 indeg hEK hInv
      have hfuel2 : K.length ≤ fuel + (order ++ [n]).length := by
        rw [List.length_append]
        simp only [List.length_singleton]
        omega
      obtain ⟨P1, P2, P3, P4, P5⟩ := ih _ _ _ hInv2 hfuel2
      refine ⟨?_, P2, P3, P4, P5⟩
      calc order <+: order ++ [n] := List.prefix_append order [n]
        _ <+: _ := P1

end DegreeAuditor

/-! From the loop properties to cycle existence and edge respect. -/

namespace DegreeAuditor

theorem pair_sublist_indexOf :
    ∀ (l : List String) (x y : String), l.Nodup → x ≠ y →
      List.Sublist [x, y] l → l.indexOf x < l.indexOf y := by
  intro l
  induction l with
  | nil =>
    intro x y _ _ h
    simp at h
  | cons z t ih =>
    intro x y hnd hxy h
    rw [List.nodup_cons] at hnd
    cases h
    case cons h2 =>
      have hx : x ∈ t := List.Sublist.subset h2 (by simp)
      have hy : y ∈ t := List.Sublist.subset h2 (by simp)
      have hzx : z ≠ x := fun he => hnd.1 (he ▸ hx)
      have hzy : z ≠ y := fun he => hnd.1 (he ▸ hy)
      rw [List.indexOf_cons_ne t hzx, List.indexOf_cons_ne t hzy]
      exact Nat.succ_lt_succ (ih x y hnd.2 hxy h2)
    case cons₂ h2 =>
      have hy : y ∈ t := List.Sublist.subset h2 (by simp)
      rw [List.indexOf_cons_self, List.indexOf_cons_ne t hxy]
      exact Nat.succ_pos _
  
theorem no_cycle_of_respects (edges : List (String × String)) (res : List String)
    (hnd : res.Nodup)
    (hmem : ∀ e ∈ edges, e.1 ∈ res ∧ e.2 ∈ res)
    (hresp : ∀ e ∈ edges, e.2 ∈ res → e.1 ≠ e.2 ∧ [e.1, e.2].Sublist res) :
    ¬ HasCycleIn edges := by
  rintro ⟨v, hv⟩
  have hmono : ∀ a b, Relation.TransGen (edgeRel edges) a b →
      res.indexOf a < res.indexOf b := by
    intro a b h
    induction h with
    | single h =>
      obtain ⟨hne, hsub⟩ := hresp _ h (hmem _ h).2
      exact pair_sublist_indexOf res _ _ hnd hne hsub
    | tail h1 h2 ih =>
      obtain ⟨hne, hsub⟩ := hresp _ h2 (hmem _ h2).2
      exact Nat.lt_trans ih (pair_sublist_indexOf res _ _ hnd hne hsub)
  exact Nat.lt_irrefl _ (hmono v v hv)

theorem cycle_of_stuck (edges : List (String × String)) (K : List String)
    (res : List String)
    (hEK : ∀ e ∈ edges, e.1 ∈ K ∧ e.2 ∈ K)
    (hstuck : ∀ v ∈ K, v ∉ res → ∃ e ∈ edges, e.2 = v ∧ e.1 ∉ res)
    (v0 : String) (hv0K : v0 ∈ K) (hv0 : v0 ∉ res) :
    HasCycleIn edges := by
  have pred : ∀ x : {x : String // x ∈ K ∧ x ∉ res},
      ∃ y : {x : String // x ∈ K ∧ x ∉ res}, (y.1, x.1) ∈ edges := by
    rintro ⟨x, hxK, hxres⟩
    obtain ⟨e, he, h2, h1⟩ := hstuck x hxK hxres
    refine ⟨⟨e.1, (hEK e he).1, h1⟩, ?_⟩
    simp only []
    rw [← h2]
    exact he
  choose g hg using pred
  set x0 : {x : String // x ∈ K ∧ x ∉ res} := ⟨v0, hv0K, hv0⟩ with hx0
  set f : Nat → {x : String // x ∈ K ∧ x ∉ res} := fun k => g^[k] x0 with hf
  have hfe : ∀ k, ((f (k + 1)).1, (f k).1) ∈ edges := by
    intro k
    have : f (k + 1) = g (f k) := by
      rw [hf]
      simp only []
      rw [Function.iterate_succ_apply']
    rw [this]
    exact hg (f k)
  have htg : ∀ d a, Relation.TransGen (edgeRel edges) (f (a + d + 1)).1 (f a).1 := by
    intro d
    induction d with
    | zero =>
      intro a
      exact Relation.TransGen.single (hfe a)
    | succ d ih =>
      intro a
      have step : edgeRel edges (f (a + (d + 1) + 1)).1 (f (a + d + 1)).1 := by
        have := hfe (a + d + 1)
        have harith : a + d + 1 + 1 = a + (d + 1) + 1 := by omega
        rw [harith] at this
        exact this
      exact Relation.TransGen.head step (ih a)
  have hmaps : ∀ k ∈ Finset.range (K.length + 1), (f k).1 ∈ K.toFinset := by
    intro k _
    rw [List.mem_toFinset]
    exact (f k).2.1
  have hcard : K.toFinset.card < (Finset.range (K.length + 1)).card := by
    rw [Finset.card_range]
    have := List.toFinset_card_le K
    omega
  obtain ⟨i, hi, j, hj, hij, hfij⟩ :=
    Finset.exists_ne_map_eq_of_card_lt_of_maps_to hcard hmaps
  rcases Nat.lt_or_ge i j with hlt | hge
  · obtain ⟨d, hd⟩ : ∃ d, j = i + d + 1 := ⟨j - i - 1, by omega⟩
    refine ⟨(f i).1, ?_⟩
    have := htg d i
    rw [← hd] at this
    have hfeq : (f j).1 = (f i).1 := by
      have : (f i).1 = (f j).1 := hfij
      exact this.symm
    rw [hfeq] at this
    exact this
  · have hlt2 : j < i := by
      rcases Nat.lt_or_ge j i with h | h
      · exact h
      · omega
    obtain ⟨d, hd⟩ : ∃ d, i = j + d + 1 := ⟨i - j - 1, by omega⟩
    refine ⟨(f j).1, ?_⟩
    have := htg d j
    rw [← hd] at this
    have hfeq : (f i).1 = (f j).1 := hfij
    rw [hfeq] at this
    exact this

end DegreeAuditor

/-! Assembled correctness properties of topoSort. -/

namespace DegreeAuditor

theorem topoSort_core (nodes : List String) (edges : List (String × String)) :
    (topoSort nodes edges).order.Nodup
    ∧ (∀ x ∈ (topoSort nodes edges).order, x ∈ graphNodes nodes edges)
    ∧ ((topoSort nodes edges).hasCycle = true ↔
        (topoSort nodes edges).order.length < (graphNodes nodes edges).length)
    ∧ ((topoSort nodes edges).hasCycle = true ↔ HasCycleIn edges)
    ∧ ((topoSort nodes edges).hasCycle = false →
        ∀ e ∈ edges, e.1 ≠ e.2 ∧ [e.1, e.2].Sublist (topoSort nodes edges).order) := by
  obtain ⟨hk1, hk2, hg1, hg2⟩ := topoBuild_spec nodes edges
  have hKnd : (indegKeys nodes edges).Nodup := nodup_dedupFirst _
  have hGnd : (graphNodes nodes edges).Nodup := nodup_dedupFirst _
  have hEK : ∀ e ∈ edges, e.1 ∈ indegKeys nodes edges ∧ e.2 ∈ indegKeys nodes edges := by
    intro e he
    constructor
    · rw [mem_indegKeys_iff]
      exact Or.inr ⟨e, he, Or.inl rfl⟩
    · rw [mem_indegKeys_iff]
      exact Or.inr ⟨e, he, Or.inr rfl⟩
  have hAdj : ∀ n ∈ indegKeys nodes edges,
      (mget (topoBuild nodes edges).1 n).getD [] = edgeTargets edges n := by
    intro n hn
    have hng : n ∈ graphNodes nodes edges := by
      rw [mem_graphNodes_iff]
      rw [mem_indegKeys_iff] at hn
      exact hn
    rw [hg1 n, if_pos hng]
    rfl
  have horder : (topoSort nodes edges).order =
      kahnLoop (topoBuild nodes edges).2.length (topoBuild nodes edges).2
        (topoBuild nodes edges).1
        (((topoBuild nodes edges).2.filter (fun p => p.2 = 0)).map (·.1)) [] := rfl
  have hcyc : (topoSort nodes edges).hasCycle =
      decide ((topoSort nodes edges).order.length ≠ (topoBuild nodes edges).1.length) := rfl
  set B2 := (topoBuild nodes edges).2 with hB2
  set q0 := (B2.filter (fun p => p.2 = 0)).map (·.1) with hq0
  have hmapeq : (B2.map (fun p => p.1)) = mkeys B2 := rfl
  have hq0subkeys : List.Sublist q0 (mkeys B2) := by
    rw [hq0, ← hmapeq]
    exact List.Sublist.map (fun p => p.1) (List.filter_sublist B2)
  have hq0nd : q0.Nodup := List.Nodup.sublist hq0subkeys (hk2 ▸ hKnd)
  have hq0K : ∀ x ∈ q0, x ∈ indegKeys nodes edges := by
    intro x hx
    rw [← hk2]
    exact List.Sublist.subset hq0subkeys hx
  have hq0val : ∀ v ∈ q0, mget B2 v = some 0 := by
    intro v hv
    rw [hq0, List.mem_map] at hv
    obtain ⟨p, hp, hpv⟩ := hv
    rw [List.mem_filter] at hp
    have hp2 : p.2 = (0 : Int) := by simpa using hp.2
    have hpmem : (v, (0 : Int)) ∈ B2 := by
      have : p = (v, (0 : Int)) := by
        rcases p with ⟨a, b⟩
        simp at hpv hp2
        simp [hpv, hp2]
      rw [← this]
      exact hp.1
    exact mget_of_mem_nodup (hk2 ▸ hKnd) hpmem
  have hIC0 : ∀ v ∈ q0, indegCount edges v = 0 := by
    intro v hv
    have h1 := hq0val v hv
    have h2 := hg2 v
    rw [if_pos (hq0K v hv)] at h2
    rw [h1] at h2
    have : ((indegCount edges v : Int)) = 0 := by
      simpa using h2.symm
    omega
  have hnotq0 : ∀ v ∈ indegKeys nodes edges, v ∉ q0 → indegCount edges v ≠ 0 := by
    intro v hvK hvq hc
    apply hvq
    have h2 := hg2 v
    rw [if_pos hvK, hc] at h2
    have hpmem : (v, (0 : Int)) ∈ B2 := by
      have := mget_mem h2
      simpa using this
    rw [hq0, List.mem_map]
    refine ⟨(v, (0 : Int)), ?_, rfl⟩
    rw [List.mem_filter]
    exact ⟨hpmem, by simp⟩
  have hInv0 : KahnInv edges (indegKeys nodes edges) B2 q0 [] := by
    refine ⟨?_, ?_, ?_, hq0K, ?_, ?_, ?_⟩
    · intro v
      rw [hg2 v]
      by_cases hv : v ∈ indegKeys nodes edges
      · rw [if_pos hv, if_pos hv, inCnt_nil]
        simp
      · rw [if_neg hv, if_neg hv]
    · simpa using hq0nd
    · intro x hx
      simp at hx
    · intro e _ h2
      simp at h2
    · intro e he h2
      exfalso
      have h0 := hIC0 e.2 h2
      unfold indegCount at h0
      rw [List.countP_eq_zero] at h0
      exact absurd (by simp : (decide (e.2 = e.2)) = true) (by simpa using h0 e he)
    · intro v hvK _ hvq
      rw [inCnt_nil]
      have := hnotq0 v hvK hvq
      omega
  have hfuel : (indegKeys nodes edges).length ≤ B2.length + ([] : List String).length := by
    have : B2.length = (mkeys B2).length := by simp [mkeys]
    rw [this, hk2]
    simp
  obtain ⟨_, P2, P3, P4, P5⟩ := kahnLoop_spec edges (indegKeys nodes edges)
    (topoBuild nodes edges).1 hEK hKnd hAdj B2.length B2 q0 [] hInv0 hfuel
  rw [← horder] at P2 P3 P4 P5
  have hmemG : ∀ x ∈ (topoSort nodes edges).order, x ∈ graphNodes nodes edges := by
    intro x hx
    rw [mem_graphNodes_iff]
    have := P3 x hx
    rw [mem_indegKeys_iff] at this
    exact this
  have hlen_le : (topoSort nodes edges).order.length ≤ (indegKeys nodes edges).length :=
    length_le_of_nodup_subset P2 P3
  have hadjlen : (topoBuild nodes edges).1.length = (graphNodes nodes edges).length := by
    have : (topoBuild nodes edges).1.length = (mkeys (topoBuild nodes edges).1).length := by
      simp [mkeys]
    rw [this, hk1]
  have hKG : (indegKeys nodes edges).length = (graphNodes nodes edges).length :=
    (graphNodes_length_eq nodes edges).symm
  have hC : (topoSort nodes edges).hasCycle = true ↔
      (topoSort nodes edges).order.length < (graphNodes nodes edges).length := by
    rw [hcyc, hadjlen]
    simp only [decide_eq_true_eq]
    omega
  have hfull_of_nocycle : (topoSort nodes edges).hasCycle = false →
      ∀ v ∈ indegKeys nodes edges, v ∈ (topoSort nodes edges).order := by
    intro hf
    have hne : ¬ ((topoSort nodes edges).order.length <
        (graphNodes nodes edges).length) := by
      intro hc
      rw [hC.mpr hc] at hf
      simp at hf
    apply nodup_subset_full hKnd P2 P3
    omega
  refine ⟨P2, hmemG, hC, ?_, ?_⟩
  · constructor
    · intro hcy
      have hlt := hC.mp hcy
      have hex : ∃ v ∈ indegKeys nodes edges, v ∉ (topoSort nodes edges).order := by
        by_contra hc
        push_neg at hc
        have := length_le_of_nodup_subset hKnd hc
        omega
      obtain ⟨v, hvK, hvo⟩ := hex
      exact cycle_of_stuck edges (indegKeys nodes edges) (topoSort nodes edges).order
        hEK P5 v hvK hvo
    · intro hcycle
      by_contra hc
      have hf : (topoSort nodes edges).hasCycle = false := by
        cases h : (topoSort nodes edges).hasCycle
        · rfl
        · exact absurd h hc
      have hfull := hfull_of_nocycle hf
      apply no_cycle_of_respects edges (topoSort nodes edges).order P2 ?_ P4
      · exact hcycle
      · intro e he
        exact ⟨hfull e.1 (hEK e he).1, hfull e.2 (hEK e he).2⟩
  · intro hf e he
    exact P4 e he (hfull_of_nocycle hf e.2 (hEK e he).2)

end DegreeAuditor

/-! Characterization of the per-group classifier outputs. -/

namespace DegreeAuditor

theorem verifyPlanner_violations_eq (schedule : List ScheduleItem) (ids : List String)
    (groups : List GroupRow) (memberRows : List MemberRow) :
    (verifyPlanner schedule ids groups memberRows).violations =
      (buildGroupsById groups memberRows).flatMap
        (groupViolations ids (buildScheduleMap schedule)) := rfl

theorem verifyPlanner_advisory_eq (schedule : List ScheduleItem) (ids : List String)
    (groups : List GroupRow) (memberRows : List MemberRow) :
    (verifyPlanner schedule ids groups memberRows).advisory =
      (buildGroupsById groups memberRows).flatMap
        (groupAdvisories ids (buildScheduleMap schedule))
      ++ (if (topoSort (buildNodesEdges (buildGroupsById groups memberRows)).1
            (buildNodesEdges (buildGroupsById groups memberRows)).2).hasCycle
          then [{ course_id := none, message := Msg.cycleDetected }] else []) := rfl

theorem verifyPlanner_order_eq (schedule : List ScheduleItem) (ids : List String)
    (groups : List GroupRow) (memberRows : List MemberRow) :
    (verifyPlanner schedule ids groups memberRows).suggestedOrder =
      (topoSort (buildNodesEdges (buildGroupsById groups memberRows)).1
        (buildNodesEdges (buildGroupsById groups memberRows)).2).order := rfl

theorem mem_groupViolations {rem : List String} {smap : List (String × Int)}
    {g : GroupWithMembers} {v : Violation} (h : v ∈ groupViolations rem smap g) :
    ∃ d, g.course_id = some d ∧ v.course_id = d ∧
      ((∀ m ∈ v.missingPrereqs, m ∈ rem)
      ∨ (∃ dt mt m, mget smap d = some dt ∧ mget smap m = some mt ∧ dt ≤ mt ∧
          v.missingPrereqs = [m] ∧ v.message = Msg.mustBeEarlier m d)) := by
  unfold groupViolations at h
  rcases hgc : g.course_id with _ | d
  · rw [hgc] at h
    simp at h
  · rw [hgc] at h
    simp only [] at h
    rcases hdt : mget smap d with _ | dt
    · rw [hdt] at h
      simp only [] at h
      by_cases hemp : (((memberInfoOf smap g).filter
          (fun m => m.scheduledTerm = none)).map MemberInfo.id).filter
          (fun id => id ∈ rem) |>.isEmpty
      · rw [if_pos hemp] at h
        simp at h
      · rw [if_neg hemp] at h
        simp only [List.mem_singleton] at h
        subst h
        refine ⟨d, rfl, rfl, Or.inl ?_⟩
        intro m hm
        simp only [List.mem_filter, decide_eq_true_eq] at hm
        exact hm.2
    · rw [hdt] at h
      simp only [] at h
      rw [List.mem_append] at h
      rcases h with h | h
      · by_cases hcond : ((countEarlierOf smap g dt : Int) < g.min_courses)
        · rw [if_pos hcond] at h
          by_cases hemp : ((missingOf smap g dt).filter (fun id => id ∈ rem)).isEmpty
          · rw [if_pos hemp] at h
            simp at h
          · rw [if_neg hemp] at h
            simp only [List.mem_singleton] at h
            subst h
            refine ⟨d, rfl, rfl, Or.inl ?_⟩
            intro m hm
            simp only [List.mem_filter, decide_eq_true_eq] at hm
            exact hm.2
        · rw [if_neg hcond] at h
          simp at h
      · rw [List.mem_filterMap] at h
        obtain ⟨mi, hmi, hsome⟩ := h
        by_cases hl : isLate mi dt
        · rw [if_pos hl] at hsome
          simp only [Option.some_inj] at hsome
          subst hsome
          refine ⟨d, rfl, rfl, Or.inr ?_⟩
          unfold isLate at hl
          rcases hms : mi.scheduledTerm with _ | mt
          · rw [hms] at hl
            simp at hl
          · rw [hms] at hl
            simp only [decide_eq_true_eq] at hl
            refine ⟨dt, mt, mi.id, hdt, ?_, hl, rfl, rfl⟩
            unfold memberInfoOf at hmi
            rw [List.mem_map] at hmi
            obtain ⟨pr, _, hpr⟩ := hmi
            rw [← hpr] at hms
            rw [← hpr]
            simpa using hms
        · rw [if_neg hl] at hsome
          simp at hsome

theorem mem_groupAdvisories {rem : List String} {smap : List (String × Int)}
    {g : GroupWithMembers} {a : Advisory} (h : a ∈ groupAdvisories rem smap g) :
    ∃ d, g.course_id = some d ∧ a.course_id = some d ∧
      ((∃ l, a.message = Msg.prereqsNotAvailable l ∧ l ≠ [] ∧ ∀ m ∈ l, ¬ m ∈ rem)
      ∨ (∃ l, a.message = Msg.prereqsNotPlannedNorAvailable d l ∧ l ≠ [] ∧
          ∀ m ∈ l, ¬ m ∈ rem)) := by
  unfold groupAdvisories at h
  rcases hgc : g.course_id with _ | d
  · rw [hgc] at h
    simp at h
  · rw [hgc] at h
    simp only [] at h
    rcases hdt : mget smap d with _ | dt
    · rw [hdt] at h
      simp only [] at h
      set l := (((memberInfoOf smap g).filter
        (fun m => m.scheduledTerm = none)).map MemberInfo.id).filter
        (fun id => ¬ id ∈ rem) with hl
      by_cases hemp : l.isEmpty
      · rw [if_pos hemp] at h
        simp at h
      · rw [if_neg hemp] at h
        simp only [List.mem_singleton] at h
        subst h
        refine ⟨d, rfl, rfl, Or.inr ⟨l, rfl, ?_, ?_⟩⟩
        · intro hc
          rw [hc] at hemp
          simp at hemp
        · intro m hm
          rw [hl] at hm
          simp only [List.mem_filter, decide_eq_true_eq] at hm
          simpa using hm.2
    · rw [hdt] at h
      simp only [] at h
      by_cases hcond : ((countEarlierOf smap g dt : Int) < g.min_courses)
      · rw [if_pos hcond] at h
        set l := (missingOf smap g dt).filter (fun id => ¬ id ∈ rem) with hl
        by_cases hemp : l.isEmpty
        · rw [if_pos hemp] at h
          simp at h
        · rw [if_neg hemp] at h
          simp only [List.mem_singleton] at h
          subst h
          refine ⟨d, rfl, rfl, Or.inl ⟨l, rfl, ?_, ?_⟩⟩
          · intro hc
            rw [hc] at hemp
            simp at hemp
          · intro m hm
            rw [hl] at hm
            simp only [List.mem_filter, decide_eq_true_eq] at hm
            simpa using hm.2
      · rw [if_neg hcond] at h
        simp at h

end DegreeAuditor

/-! Node-set characterization and complete orders without cycles. -/

namespace DegreeAuditor

theorem memberFold_nodes (cid : Option String) :
    ∀ (members : List String) (a : List String × List (String × String)) (x : String),
      x ∈ (members.foldl (memberStep cid) a).1 ↔ x ∈ a.1 ∨ x ∈ members := by
  intro members
  induction members with
  | nil => intro a x; simp
  | cons pr t ih =>
    intro a x
    rw [List.foldl_cons]
    have hstep : (memberStep cid a pr).1 = setAdd a.1 pr := by
      unfold memberStep
      rcases cid with _ | c <;> simp
    rw [ih (memberStep cid a pr) x, hstep, mem_setAdd]
    simp only [List.mem_cons]
    tauto

theorem nodeEdgeStep_nodes (acc : List String × List (String × String))
    (g : GroupWithMembers) (x : String) :
    x ∈ (nodeEdgeStep acc g).1 ↔
      x ∈ acc.1 ∨ g.course_id = some x ∨ x ∈ g.members := by
  unfold nodeEdgeStep
  rw [memberFold_nodes]
  rcases hgc : g.course_id with _ | d
  · simp
  · simp only []
    rw [mem_setAdd]
    constructor
    · rintro ((h | h) | h)
      · exact Or.inr (Or.inl (by rw [h]))
      · exact Or.inl h
      · exact Or.inr (Or.inr h)
    · rintro (h | h | h)
      · exact Or.inl (Or.inr h)
      · exact Or.inl (Or.inl (by simpa using h.symm))
      · exact Or.inr h

theorem buildNodesEdges_nodes_mem :
    ∀ (gs : List GroupWithMembers) (acc : List String × List (String × String)) (x : String),
      x ∈ (gs.foldl nodeEdgeStep acc).1 ↔
        x ∈ acc.1 ∨ ∃ g ∈ gs, g.course_id = some x ∨ x ∈ g.members := by
  intro gs
  induction gs with
  | nil => intro acc x; simp
  | cons g t ih =>
    intro acc x
    rw [List.foldl_cons, ih (nodeEdgeStep acc g) x, nodeEdgeStep_nodes]
    constructor
    · rintro ((h | h) | ⟨g2, hg2, hp⟩)
      · exact Or.inl h
      · exact Or.inr ⟨g, by simp, h⟩
      · exact Or.inr ⟨g2, by simp [hg2], hp⟩
    · rintro (h | ⟨g2, hg2, hp⟩)
      · exact Or.inl (Or.inl h)
      · rw [List.mem_cons] at hg2
        rcases hg2 with hg2 | hg2
        · exact Or.inl (Or.inr (hg2 ▸ hp))
        · exact Or.inr ⟨g2, hg2, hp⟩

theorem topoSort_complete_of_no_cycle (nodes : List String)
    (edges : List (String × String))
    (h : (topoSort nodes edges).hasCycle = false) :
    ∀ x, x ∈ (topoSort nodes edges).order ↔ x ∈ graphNodes nodes edges := by
  obtain ⟨hnd, hmem, hlen, _, _⟩ := topoSort_core nodes edges
  have hG : (graphNodes nodes edges).Nodup := nodup_dedupFirst _
  have hnlt : ¬ ((topoSort nodes edges).order.length < (graphNodes nodes edges).length) := by
    intro hc
    rw [hlen.mpr hc] at h
    simp at h
  have hle := length_le_of_nodup_subset hnd hmem
  have hfull := nodup_subset_full hG hnd hmem (by omega)
  intro x
  exact ⟨hmem x, hfull x⟩

end DegreeAuditor

/-! Claim theorems. -/

namespace DegreeAuditor

/-- C1: for every node list and edge list, topoSort reports hasCycle = true
iff the emitted order is strictly shorter than the number of graph-resident
nodes, which happens exactly when the directed graph contains at least one
cycle; when hasCycle is false the emitted order respects every edge: both
endpoints are emitted and the source strictly precedes the target. -/
theorem C1_topoSort_cycle_iff (nodes : List String) (edges : List (String × String)) :
    ((topoSort nodes edges).hasCycle = true ↔
      (topoSort nodes edges).order.length < (graphNodes nodes edges).length)
    ∧ ((topoSort nodes edges).hasCycle = true ↔ HasCycleIn edges)
    ∧ ((topoSort nodes edges).hasCycle = false →
        ∀ e ∈ edges, e.1 ∈ (topoSort nodes edges).order
          ∧ e.2 ∈ (topoSort nodes edges).order
          ∧ (topoSort nodes edges).order.indexOf e.1 <
              (topoSort nodes edges).order.indexOf e.2) := by
  obtain ⟨hnd, _, hlen, hcyc, hresp⟩ := topoSort_core nodes edges
  refine ⟨hlen, hcyc, ?_⟩
  intro hf e he
  obtain ⟨hne, hsub⟩ := hresp hf e he
  have h1 : e.1 ∈ (topoSort nodes edges).order := List.Sublist.subset hsub (by simp)
  have h2 : e.2 ∈ (topoSort nodes edges).order := List.Sublist.subset hsub (by simp)
  exact ⟨h1, h2, pair_sublist_indexOf _ _ _ hnd hne hsub⟩

/-- Witness for C1: a two-node cycle is reported, and the cycle direction of
the equivalence yields an actual directed cycle. -/
theorem C1_topoSort_cycle_iff_witness :
    (topoSort ["a", "b"] [("a", "b"), ("b", "a")]).hasCycle = true
    ∧ HasCycleIn [("a", "b"), ("b", "a")] :=
  ⟨by decide,
   (C1_topoSort_cycle_iff ["a", "b"] [("a", "b"), ("b", "a")]).2.1.mp (by decide)⟩

/-- C2: a group member scheduled at a term index greater than or equal to
the scheduled dependent term always produces a must-be-scheduled-earlier
violation entry for the dependent, regardless of the min-courses tally. -/
theorem C2_late_member_violation (schedule : List ScheduleItem) (ids : List String)
    (groups : List GroupRow) (memberRows : List MemberRow)
    (g : GroupWithMembers) (d m : String) (dt mt : Int)
    (hg : g ∈ buildGroupsById groups memberRows)
    (hd : g.course_id = some d)
    (hdt : mget (buildScheduleMap schedule) d = some dt)
    (hm : m ∈ g.members)
    (hmt : mget (buildScheduleMap schedule) m = some mt)
    (hge : dt ≤ mt) :
    ({ course_id := d, message := Msg.mustBeEarlier m d, missingPrereqs := [m] } : Violation)
      ∈ (verifyPlanner schedule ids groups memberRows).violations := by
  rw [verifyPlanner_violations_eq, List.mem_flatMap]
  refine ⟨g, hg, ?_⟩
  unfold groupViolations
  rw [hd]
  simp only []
  rw [hdt]
  simp only []
  rw [List.mem_append]
  right
  rw [List.mem_filterMap]
  refine ⟨⟨m, mget (buildScheduleMap schedule) m⟩, ?_, ?_⟩
  · unfold memberInfoOf
    exact List.mem_map_of_mem _ hm
  · have hl : isLate ⟨m, mget (buildScheduleMap schedule) m⟩ (dt) = true := by
      unfold isLate
      rw [hmt]
      simpa using hge
    rw [if_pos hl]

/-- Witness for C2: a member scheduled in the same term as its dependent is
reported even though nothing else is wrong. -/
theorem C2_late_member_violation_witness :
    ({ course_id := "D", message := Msg.mustBeEarlier "P" "D", missingPrereqs := ["P"] } : Violation)
      ∈ (verifyPlanner [⟨"D", 0, "F"⟩, ⟨"P", 0, "F"⟩] [] [⟨1, "D", 1⟩] [⟨1, "P"⟩]).violations :=
  C2_late_member_violation [⟨"D", 0, "F"⟩, ⟨"P", 0, "F"⟩] [] [⟨1, "D", 1⟩] [⟨1, "P"⟩]
    { group_id := 1, course_id := some "D", min_courses := 1, members := ["P"] }
    "D" "P" 0 0 (by decide) rfl (by decide) (by decide) (by decide) (by decide)

/-- C9: a request whose schedule or remainingStandaloneCourseIds field is
missing or not list-shaped is rejected at request level; the handler
returns an error and produces no verification result. -/
theorem C9_request_rejection (req : RawRequest) (groups : List GroupRow)
    (memberRows : List MemberRow)
    (h : req.schedule = none ∨ req.remainingStandaloneCourseIds = none) :
    ∃ err, verifyPlannerHandler req groups memberRows = Except.error err := by
  unfold verifyPlannerHandler
  rcases hs : req.schedule with _ | sch
  · exact ⟨.invalidSchedule, rfl⟩
  · rcases hr : req.remainingStandaloneCourseIds with _ | ids
    · exact ⟨.invalidRemainingStandaloneCourseIds, rfl⟩
    · exfalso
      rcases h with h | h
      · rw [hs] at h
        exact Option.noConfusion h
      · rw [hr] at h
        exact Option.noConfusion h

/-- Witness for C9: a request with a missing schedule is rejected. -/
theorem C9_request_rejection_witness :
    (some ([] : List String) ≠ none ∨ True)
    ∧ ∃ err, verifyPlannerHandler ⟨none, some []⟩ [] [] = Except.error err :=
  ⟨Or.inr trivial, C9_request_rejection ⟨none, some []⟩ [] [] (Or.inl rfl)⟩

/-- C10: when a group dependent is not scheduled, the classifier still
classifies the unscheduled members: one in the outstanding set yields a
violation entry naming the unscheduled dependent, one outside it yields an
advisory listing it. -/
theorem C10_unscheduled_dependent (schedule : List ScheduleItem) (ids : List String)
    (groups : List GroupRow) (memberRows : List MemberRow)
    (g : GroupWithMembers) (d m : String)
    (hg : g ∈ buildGroupsById groups memberRows)
    (hd : g.course_id = some d)
    (hdnot : mget (buildScheduleMap schedule) d = none)
    (hm : m ∈ g.members)
    (hmnot : mget (buildScheduleMap schedule) m = none) :
    (m ∈ ids → ∃ v ∈ (verifyPlanner schedule ids groups memberRows).violations,
        v.course_id = d ∧ m ∈ v.missingPrereqs)
    ∧ (¬ m ∈ ids → ∃ a ∈ (verifyPlanner schedule ids groups memberRows).advisory,
        a.course_id = some d ∧
        ∃ l, a.message = Msg.prereqsNotPlannedNorAvailable d l ∧ m ∈ l) := by
  have hns : m ∈ ((memberInfoOf (buildScheduleMap schedule) g).filter
      (fun mi => mi.scheduledTerm = none)).map MemberInfo.id := by
    rw [List.mem_map]
    refine ⟨⟨m, mget (buildScheduleMap schedule) m⟩, ?_, rfl⟩
    rw [List.mem_filter]
    constructor
    · unfold memberInfoOf
      exact List.mem_map_of_mem _ hm
    · simp [hmnot]
  constructor
  · intro hin
    rw [verifyPlanner_violations_eq]
    set viol := (((memberInfoOf (buildScheduleMap schedule) g).filter
      (fun mi => mi.scheduledTerm = none)).map MemberInfo.id).filter
      (fun id => id ∈ ids) with hviol
    have hmv : m ∈ viol := by
      rw [hviol, List.mem_filter]
      exact ⟨hns, by simpa using hin⟩
    have hne : ¬ viol.isEmpty = true := by
      intro hc
      rw [List.isEmpty_iff] at hc
      rw [hc] at hmv
      simp at hmv
    refine ⟨{ course_id := d, message := Msg.prereqsExistNotScheduled d viol,
              missingPrereqs := viol }, ?_, rfl, hmv⟩
    rw [List.mem_flatMap]
    refine ⟨g, hg, ?_⟩
    unfold groupViolations
    rw [hd]
    simp only []
    rw [hdnot]
    simp only []
    rw [if_neg hne]
    simp
  · intro hout
    rw [verifyPlanner_advisory_eq]
    set adv := (((memberInfoOf (buildScheduleMap schedule) g).filter
      (fun mi => mi.scheduledTerm = none)).map MemberInfo.id).filter
      (fun id => ¬ id ∈ ids) with hadv
    have hma : m ∈ adv := by
      rw [hadv, List.mem_filter]
      exact ⟨hns, by simpa using hout⟩
    have hne : ¬ adv.isEmpty = true := by
      intro hc
      rw [List.isEmpty_iff] at hc
      rw [hc] at hma
      simp at hma
    refine ⟨{ course_id := some d, message := Msg.prereqsNotPlannedNorAvailable d adv },
      ?_, rfl, adv, rfl, hma⟩
    rw [List.mem_append]
    left
    rw [List.mem_flatMap]
    refine ⟨g, hg, ?_⟩
    unfold groupAdvisories
    rw [hd]
    simp only []
    rw [hdnot]
    simp only []
    rw [if_neg hne]
    simp only [List.mem_singleton]

/-- Witness for C10: with the dependent unscheduled, a tracked member gives
a violation and an untracked member gives an advisory. -/
theorem C10_unscheduled_dependent_witness :
    (∃ v ∈ (verifyPlanner [] ["M"] [⟨1, "D", 1⟩] [⟨1, "M"⟩]).violations,
        v.course_id = "D" ∧ "M" ∈ v.missingPrereqs)
    ∧ ∃ a ∈ (verifyPlanner [] [] [⟨1, "D", 1⟩] [⟨1, "M"⟩]).advisory,
        a.course_id = some "D" ∧
        ∃ l, a.message = Msg.prereqsNotPlannedNorAvailable "D" l ∧ "M" ∈ l :=
  ⟨(C10_unscheduled_dependent [] ["M"] [⟨1, "D", 1⟩] [⟨1, "M"⟩]
      { group_id := 1, course_id := some "D", min_courses := 1, members := ["M"] }
      "D" "M" (by decide) rfl (by decide) (by decide) (by decide)).1 (by decide),
   (C10_unscheduled_dependent [] [] [⟨1, "D", 1⟩] [⟨1, "M"⟩]
      { group_id := 1, course_id := some "D", min_courses := 1, members := ["M"] }
      "D" "M" (by decide) rfl (by decide) (by decide) (by decide)).2 (by decide)⟩

end DegreeAuditor

namespace DegreeAuditor

/-- C3 counterexample: with an empty outstanding-requirements set, a member
scheduled in the same term as its dependent is referenced as a missing
prerequisite in a violation entry, so not every such reference lies in the
outstanding set. -/
theorem C3_counterexample :
    ∃ v ∈ (verifyPlanner [⟨"D", 0, "F"⟩, ⟨"P", 0, "F"⟩] []
        [⟨1, "D", 1⟩] [⟨1, "P"⟩]).violations,
      ∃ m ∈ v.missingPrereqs, ¬ m ∈ ([] : List String) := by decide

/-- C3 amended: every course referenced as a missing prerequisite in a
violation entry is either in the outstanding-requirements set, or is a
member scheduled at a term index greater than or equal to the scheduled
term of the entry dependent (the term-order check emits those violations
without consulting the outstanding set). -/
theorem C3_amended_violation_sources (schedule : List ScheduleItem) (ids : List String)
    (groups : List GroupRow) (memberRows : List MemberRow) :
    ∀ v ∈ (verifyPlanner schedule ids groups memberRows).violations,
      ∀ m ∈ v.missingPrereqs,
        m ∈ ids ∨ ∃ dt mt : Int,
          mget (buildScheduleMap schedule) v.course_id = some dt ∧
          mget (buildScheduleMap schedule) m = some mt ∧ dt ≤ mt := by
  intro v hv m hm
  rw [verifyPlanner_violations_eq, List.mem_flatMap] at hv
  obtain ⟨g, hg, hvg⟩ := hv
  obtain ⟨d, hd, hvd, hcase⟩ := mem_groupViolations hvg
  rcases hcase with h | ⟨dt, mt, m0, hdt, hmt, hle, hmp, hmsg⟩
  · exact Or.inl (h m hm)
  · rw [hmp] at hm
    simp at hm
    subst hm
    exact Or.inr ⟨dt, mt, by rw [hvd]; exact hdt, hmt, hle⟩

/-- Witness for the amended C3 at the counterexample input: the reference to
the late-scheduled member is explained by the term-order check. -/
theorem C3_amended_violation_sources_witness :
    "P" ∈ ([] : List String) ∨ ∃ dt mt : Int,
      mget (buildScheduleMap [⟨"D", 0, "F"⟩, ⟨"P", 0, "F"⟩]) "D" = some dt ∧
      mget (buildScheduleMap [⟨"D", 0, "F"⟩, ⟨"P", 0, "F"⟩]) "P" = some mt ∧ dt ≤ mt :=
  C3_amended_violation_sources [⟨"D", 0, "F"⟩, ⟨"P", 0, "F"⟩] [] [⟨1, "D", 1⟩] [⟨1, "P"⟩]
    { course_id := "D", message := Msg.mustBeEarlier "P" "D", missingPrereqs := ["P"] }
    (by decide) "P" (by decide)

/-- C4 counterexample: a member that is not scheduled strictly earlier and
is outside the outstanding set is listed by the shortfall advisory and is
also referenced by a term-order violation, so it appears in both lists. -/
theorem C4_counterexample :
    (∃ g ∈ buildGroupsById [⟨1, "D", 1⟩] [⟨1, "P"⟩], g.course_id = some "D" ∧
      (countEarlierOf (buildScheduleMap [⟨"D", 0, "F"⟩, ⟨"P", 0, "F"⟩]) g 0 : Int)
        < g.min_courses ∧
      "P" ∈ missingOf (buildScheduleMap [⟨"D", 0, "F"⟩, ⟨"P", 0, "F"⟩]) g 0)
    ∧ mget (buildScheduleMap [⟨"D", 0, "F"⟩, ⟨"P", 0, "F"⟩]) "D" = some 0
    ∧ (∃ a ∈ (verifyPlanner [⟨"D", 0, "F"⟩, ⟨"P", 0, "F"⟩] []
        [⟨1, "D", 1⟩] [⟨1, "P"⟩]).advisory,
        a.message = Msg.prereqsNotAvailable ["P"])
    ∧ (∃ v ∈ (verifyPlanner [⟨"D", 0, "F"⟩, ⟨"P", 0, "F"⟩] []
        [⟨1, "D", 1⟩] [⟨1, "P"⟩]).violations, "P" ∈ v.missingPrereqs) := by decide

/-- C4 amended: within the shortfall classification of one group, every
unmet member is placed in exactly one of the violation entry (when it is
in the outstanding set) or the advisory entry (when it is not); the
term-order check can additionally reference a late-scheduled member in a
separate violation, so the exactly-one property holds per classification,
not across the whole output. -/
theorem C4_shortfall_partition (schedule : List ScheduleItem) (ids : List String)
    (groups : List GroupRow) (memberRows : List MemberRow)
    (g : GroupWithMembers) (d : String) (dt : Int) (m : String)
    (hg : g ∈ buildGroupsById groups memberRows)
    (hd : g.course_id = some d)
    (hdt : mget (buildScheduleMap schedule) d = some dt)
    (hcount : (countEarlierOf (buildScheduleMap schedule) g dt : Int) < g.min_courses)
    (hm : m ∈ missingOf (buildScheduleMap schedule) g dt) :
    (m ∈ (missingOf (buildScheduleMap schedule) g dt).filter (fun id => id ∈ ids)
      ↔ m ∈ ids)
    ∧ (m ∈ (missingOf (buildScheduleMap schedule) g dt).filter (fun id => ¬ id ∈ ids)
      ↔ ¬ m ∈ ids)
    ∧ ¬ (m ∈ (missingOf (buildScheduleMap schedule) g dt).filter (fun id => id ∈ ids)
        ∧ m ∈ (missingOf (buildScheduleMap schedule) g dt).filter (fun id => ¬ id ∈ ids))
    ∧ (m ∈ ids →
        ∃ v ∈ (verifyPlanner schedule ids groups memberRows).violations,
          v.course_id = d ∧
          v.missingPrereqs =
            (missingOf (buildScheduleMap schedule) g dt).filter (fun id => id ∈ ids) ∧
          m ∈ v.missingPrereqs)
    ∧ (¬ m ∈ ids →
        ∃ a ∈ (verifyPlanner schedule ids groups memberRows).advisory,
          a.course_id = some d ∧
          a.message = Msg.prereqsNotAvailable
            ((missingOf (buildScheduleMap schedule) g dt).filter (fun id => ¬ id ∈ ids))) := by
  refine ⟨?_, ?_, ?_, ?_, ?_⟩
  · rw [List.mem_filter]
    simp [hm]
  · rw [List.mem_filter]
    simp [hm]
  · rintro ⟨h1, h2⟩
    rw [List.mem_filter] at h1 h2
    simp at h1 h2
    exact h2.2 h1.2
  · intro hin
    set mv := (missingOf (buildScheduleMap schedule) g dt).filter (fun id => id ∈ ids)
      with hmv
    have hmm : m ∈ mv := by
      rw [hmv, List.mem_filter]
      simp [hm, hin]
    have hne : ¬ mv.isEmpty = true := by
      intro hc
      rw [List.isEmpty_iff] at hc
      rw [hc] at hmm
      simp at hmm
    refine ⟨{ course_id := d,
              message := Msg.notEnoughPrereqs g.group_id d g.min_courses
                (countEarlierOf (buildScheduleMap schedule) g dt) mv,
              missingPrereqs := mv }, ?_, rfl, rfl, hmm⟩
    rw [verifyPlanner_violations_eq, List.mem_flatMap]
    refine ⟨g, hg, ?_⟩
    unfold groupViolations
    rw [hd]
    simp only []
    rw [hdt]
    simp only []
    rw [List.mem_append]
    left
    rw [if_pos hcount, if_neg hne]
    simp only [List.mem_singleton]
  · intro hout
    set ma := (missingOf (buildScheduleMap schedule) g dt).filter (fun id => ¬ id ∈ ids)
      with hma
    have hmm : m ∈ ma := by
      rw [hma, List.mem_filter]
      simp [hm, hout]
    have hne : ¬ ma.isEmpty = true := by
      intro hc
      rw [List.isEmpty_iff] at hc
      rw [hc] at hmm
      simp at hmm
    refine ⟨{ course_id := some d, message := Msg.prereqsNotAvailable ma }, ?_, rfl, rfl⟩
    rw [verifyPlanner_advisory_eq, List.mem_append]
    left
    rw [List.mem_flatMap]
    refine ⟨g, hg, ?_⟩
    unfold groupAdvisories
    rw [hd]
    simp only []
    rw [hdt]
    simp only []
    rw [if_pos hcount, if_neg hne]
    simp only [List.mem_singleton]

/-- Witness for the amended C4: at the counterexample input the unmet
untracked member is never in both shortfall lists at once. -/
theorem C4_shortfall_partition_witness :
    ¬ ("P" ∈ (missingOf (buildScheduleMap [⟨"D", 0, "F"⟩, ⟨"P", 0, "F"⟩])
          { group_id := 1, course_id := some "D", min_courses := 1, members := ["P"] }
          0).filter (fun id => id ∈ ([] : List String))
      ∧ "P" ∈ (missingOf (buildScheduleMap [⟨"D", 0, "F"⟩, ⟨"P", 0, "F"⟩])
          { group_id := 1, course_id := some "D", min_courses := 1, members := ["P"] }
          0).filter (fun id => ¬ id ∈ ([] : List String))) :=
  (C4_shortfall_partition [⟨"D", 0, "F"⟩, ⟨"P", 0, "F"⟩] [] [⟨1, "D", 1⟩] [⟨1, "P"⟩]
    { group_id := 1, course_id := some "D", min_courses := 1, members := ["P"] }
    "D" 0 "P" (by decide) rfl (by decide) (by decide) (by decide)).2.2.1

end DegreeAuditor

namespace DegreeAuditor

/-- C5 counterexample: a group requiring three of its two members, with
the dependent scheduled after both members, produces no advisory at all and
no violation, so no dedicated data-inconsistency advisory exists. -/
theorem C5_counterexample :
    (∃ g ∈ buildGroupsById [⟨1, "D", 3⟩] [⟨1, "P1"⟩, ⟨1, "P2"⟩],
      (g.members.length : Int) < g.min_courses)
    ∧ (verifyPlanner [⟨"P1", 0, "F"⟩, ⟨"P2", 0, "F"⟩, ⟨"D", 1, "W"⟩] []
        [⟨1, "D", 3⟩] [⟨1, "P1"⟩, ⟨1, "P2"⟩]).advisory = []
    ∧ (verifyPlanner [⟨"P1", 0, "F"⟩, ⟨"P2", 0, "F"⟩, ⟨"D", 1, "W"⟩] []
        [⟨1, "D", 3⟩] [⟨1, "P1"⟩, ⟨1, "P2"⟩]).violations = [] := by decide

/-- C5 amended: min_courses is used unclamped, so a group whose min_courses
exceeds its member count always takes the shortfall branch when its
dependent is scheduled; no dedicated data-inconsistency advisory exists:
every advisory of the output is one of the three ordinary advisory forms. -/
theorem C5_no_clamp_no_inconsistency_advisory (schedule : List ScheduleItem)
    (ids : List String) (groups : List GroupRow) (memberRows : List MemberRow)
    (g : GroupWithMembers) (d : String) (dt : Int)
    (hg : g ∈ buildGroupsById groups memberRows)
    (hd : g.course_id = some d)
    (hdt : mget (buildScheduleMap schedule) d = some dt)
    (hmin : (g.members.length : Int) < g.min_courses) :
    ((countEarlierOf (buildScheduleMap schedule) g dt : Int) < g.min_courses)
    ∧ (∀ a ∈ (verifyPlanner schedule ids groups memberRows).advisory,
        (∃ l, a.message = Msg.prereqsNotAvailable l)
        ∨ (∃ d2 l, a.message = Msg.prereqsNotPlannedNorAvailable d2 l)
        ∨ a.message = Msg.cycleDetected) := by
  constructor
  · have hle : countEarlierOf (buildScheduleMap schedule) g dt ≤ g.members.length := by
      unfold countEarlierOf
      calc ((memberInfoOf (buildScheduleMap schedule) g).countP (fun m => isEarlier m dt))
          ≤ (memberInfoOf (buildScheduleMap schedule) g).length :=
            List.countP_le_length _
        _ = g.members.length := by
            unfold memberInfoOf
            simp
    omega
  · intro a ha
    rw [verifyPlanner_advisory_eq, List.mem_append] at ha
    rcases ha with ha | ha
    · rw [List.mem_flatMap] at ha
      obtain ⟨g2, _, hag⟩ := ha
      obtain ⟨d2, _, _, hcase⟩ := mem_groupAdvisories hag
      rcases hcase with ⟨l, hmsg, _, _⟩ | ⟨l, hmsg, _, _⟩
      · exact Or.inl ⟨l, hmsg⟩
      · exact Or.inr (Or.inl ⟨d2, l, hmsg⟩)
    · rcases hcyc : (topoSort (buildNodesEdges (buildGroupsById groups memberRows)).1
          (buildNodesEdges (buildGroupsById groups memberRows)).2).hasCycle with _ | _
      · rw [hcyc] at ha
        simp at ha
      · rw [hcyc] at ha
        simp at ha
        rw [ha]
        exact Or.inr (Or.inr rfl)

/-- Witness for the amended C5: with min_courses 3 over two members the
shortfall branch condition holds at the counterexample input. -/
theorem C5_no_clamp_witness :
    (countEarlierOf (buildScheduleMap [⟨"P1", 0, "F"⟩, ⟨"P2", 0, "F"⟩, ⟨"D", 1, "W"⟩])
      { group_id := 1, course_id := some "D", min_courses := 3, members := ["P1", "P2"] }
      1 : Int) <
      ({ group_id := 1, course_id := some "D", min_courses := 3,
         members := ["P1", "P2"] } : GroupWithMembers).min_courses :=
  (C5_no_clamp_no_inconsistency_advisory
    [⟨"P1", 0, "F"⟩, ⟨"P2", 0, "F"⟩, ⟨"D", 1, "W"⟩] [] [⟨1, "D", 3⟩]
    [⟨1, "P1"⟩, ⟨1, "P2"⟩]
    { group_id := 1, course_id := some "D", min_courses := 3, members := ["P1", "P2"] }
    "D" 1 (by decide) rfl (by decide) (by decide)).1

/-- C6 counterexample: a scheduled course whose outstanding record has a
non-empty availability not containing the scheduled term name produces no
advisory (and no violation): availability never reaches the verifier. -/
theorem C6_counterexample :
    ((⟨"C", "C1", "Fall"⟩ : OutstandingReq).availability ≠ ""
      ∧ ¬ lowerStr "Spring" ∈
          availabilityTokens (⟨"C", "C1", "Fall"⟩ : OutstandingReq).availability)
    ∧ (verifyPlanner [⟨"C", 0, "Spring"⟩]
        (([⟨"C", "C1", "Fall"⟩] : List OutstandingReq).map OutstandingReq.course_id)
        [] []).advisory = []
    ∧ (verifyPlanner [⟨"C", 0, "Spring"⟩]
        (([⟨"C", "C1", "Fall"⟩] : List OutstandingReq).map OutstandingReq.course_id)
        [] []).violations = [] := by decide

/-- C6 amended: the verifier never consults availability or term names: the
whole output is invariant under changes of the termName fields of the
schedule and of everything except the course ids of the outstanding
records; in particular no availability mismatch can produce a violation or
an advisory. -/
theorem C6_availability_never_used (schedule schedule2 : List ScheduleItem)
    (outs outs2 : List OutstandingReq) (groups : List GroupRow)
    (memberRows : List MemberRow)
    (hproj : schedule.map (fun i => (i.course_id, i.termIndex)) =
      schedule2.map (fun i => (i.course_id, i.termIndex)))
    (hids : outs.map OutstandingReq.course_id = outs2.map OutstandingReq.course_id) :
    verifyPlanner schedule (outs.map OutstandingReq.course_id) groups memberRows =
      verifyPlanner schedule2 (outs2.map OutstandingReq.course_id) groups memberRows := by
  have hmap : buildScheduleMap schedule = buildScheduleMap schedule2 := by
    unfold buildScheduleMap
    have h1 : schedule.foldl (fun m item => mset m item.course_id item.termIndex)
        ([] : List (String × Int)) =
        (schedule.map (fun i => (i.course_id, i.termIndex))).foldl
          (fun m p => mset m p.1 p.2) [] := by
      rw [List.foldl_map]
    have h2 : schedule2.foldl (fun m item => mset m item.course_id item.termIndex)
        ([] : List (String × Int)) =
        (schedule2.map (fun i => (i.course_id, i.termIndex))).foldl
          (fun m p => mset m p.1 p.2) [] := by
      rw [List.foldl_map]
    rw [h1, h2, hproj]
  unfold verifyPlanner
  rw [hmap, hids]

/-- Witness for the amended C6: changing the scheduled term name and the
availability of the outstanding record leaves the whole result unchanged. -/
theorem C6_availability_never_used_witness :
    verifyPlanner [⟨"C", 0, "Spring"⟩]
        (([⟨"C", "C1", "Fall"⟩] : List OutstandingReq).map OutstandingReq.course_id)
        [⟨1, "D", 1⟩] [⟨1, "C"⟩] =
      verifyPlanner [⟨"C", 0, "Fall"⟩]
        (([⟨"C", "C2", ""⟩] : List OutstandingReq).map OutstandingReq.course_id)
        [⟨1, "D", 1⟩] [⟨1, "C"⟩] :=
  C6_availability_never_used [⟨"C", 0, "Spring"⟩] [⟨"C", 0, "Fall"⟩]
    [⟨"C", "C1", "Fall"⟩] [⟨"C", "C2", ""⟩] [⟨1, "D", 1⟩] [⟨1, "C"⟩]
    (by decide) (by decide)

/-- C7 counterexample: with an empty schedule and empty outstanding set, a
group member that is neither tracked nor scheduled is still a graph node
and the node count is 2, not 0. -/
theorem C7_counterexample :
    "M" ∈ (buildNodesEdges (buildGroupsById [⟨1, "D", 1⟩] [⟨1, "M"⟩])).1
    ∧ (verifyPlanner [] [] [⟨1, "D", 1⟩] [⟨1, "M"⟩]).details.nodesCount = 2 := by decide

/-- C7 amended: the dependency graph is built from all prerequisite groups
regardless of the schedule, and its node set consists of every non-null
dependent and every group member; the schedule and the outstanding set do
not occur in the node-set construction. -/
theorem C7_graph_from_all_groups (schedule : List ScheduleItem) (ids : List String)
    (groups : List GroupRow) (memberRows : List MemberRow) :
    ((verifyPlanner schedule ids groups memberRows).details.nodesCount =
      (buildNodesEdges (buildGroupsById groups memberRows)).1.length)
    ∧ (∀ x, x ∈ (buildNodesEdges (buildGroupsById groups memberRows)).1 ↔
        ∃ g ∈ buildGroupsById groups memberRows,
          g.course_id = some x ∨ x ∈ g.members) := by
  constructor
  · rfl
  · intro x
    unfold buildNodesEdges
    rw [buildNodesEdges_nodes_mem]
    simp

/-- Witness for the amended C7: at the counterexample input the node count
of the result equals the length of the constructed node list. -/
theorem C7_graph_from_all_groups_witness :
    (verifyPlanner [] [] [⟨1, "D", 1⟩] [⟨1, "M"⟩]).details.nodesCount =
      (buildNodesEdges (buildGroupsById [⟨1, "D", 1⟩] [⟨1, "M"⟩])).1.length :=
  (C7_graph_from_all_groups [] [] [⟨1, "D", 1⟩] [⟨1, "M"⟩]).1

/-- C8 counterexample: the suggested order contains the dependent course
even though it is not in the outstanding-requirements set, so the order is
not filtered down to outstanding courses. -/
theorem C8_counterexample :
    "D" ∈ (verifyPlanner [] [] [⟨1, "D", 1⟩] [⟨1, "M"⟩]).suggestedOrder
    ∧ ¬ "D" ∈ ([] : List String) := by decide

/-- C8 amended: the suggested order returned to the caller is the full
topological order of the graph, unfiltered; when no cycle is reported it
contains every graph node, outstanding or not. -/
theorem C8_full_order (schedule : List ScheduleItem) (ids : List String)
    (groups : List GroupRow) (memberRows : List MemberRow) :
    ((verifyPlanner schedule ids groups memberRows).suggestedOrder =
      (topoSort (buildNodesEdges (buildGroupsById groups memberRows)).1
        (buildNodesEdges (buildGroupsById groups memberRows)).2).order)
    ∧ ((verifyPlanner schedule ids groups memberRows).details.topoHasCycle = false →
        ∀ x, x ∈ (verifyPlanner schedule ids groups memberRows).suggestedOrder ↔
          x ∈ graphNodes (buildNodesEdges (buildGroupsById groups memberRows)).1
                (buildNodesEdges (buildGroupsById groups memberRows)).2) := by
  refine ⟨rfl, ?_⟩
  intro h x
  rw [verifyPlanner_order_eq]
  exact topoSort_complete_of_no_cycle _ _ h x

/-- Witness for the amended C8: at the counterexample input the untracked
dependent is in the suggested order because it is a graph node. -/
theorem C8_full_order_witness :
    "D" ∈ (verifyPlanner [] [] [⟨1, "D", 1⟩] [⟨1, "M"⟩]).suggestedOrder ↔
      "D" ∈ graphNodes (buildNodesEdges (buildGroupsById [⟨1, "D", 1⟩] [⟨1, "M"⟩])).1
        (buildNodesEdges (buildGroupsById [⟨1, "D", 1⟩] [⟨1, "M"⟩])).2 :=
  (C8_full_order [] [] [⟨1, "D", 1⟩] [⟨1, "M"⟩]).2 (by decide) "D"

end DegreeAuditor
